import Mathlib

/-!
# Verification of the StoryCrafterLLM transformer core

A shallow embedding of the model code in `StoryLLM.py`: the attention
head (`Head`), `MultiHeadAttention`, `FeedForward`, `Block` and
`GPTLanguageModel` (construction, `forward`, `generate`).  Tensors are
nested lists of scalars; a tensor of shape `(T, C)` is a `Mat` whose `T`
rows are `Vec`s of width `C`, and a batch `(B, T, C)` is a `List Mat`.
PyTorch operations that raise on bad shapes or indices are embedded as
`Option`-valued functions returning `none` exactly where the original
raises.

Floating-point arithmetic is idealised as exact arithmetic over `ℚ`,
with the transcendental primitives the model uses (`exp` inside
softmax, `sqrt` inside layer norm, `log` inside cross-entropy) supplied
as an explicit bundle `Prim` of functions, since their float versions
are themselves approximations; the one analytic fact any claim needs —
strict positivity of `exp` — is stated as an explicit hypothesis
(`Prim.ExpPos`) where used.  Every value of `ℚ` is finite, which is the
idealised reading of float finiteness.

`e^{-inf} = 0` from `masked_fill` + `softmax` is embedded as a zero
weight outside the causal mask, with the normalising sum running over
the unmasked prefix only — the exact-arithmetic value of that float
computation.  Dropout layers are embedded in evaluation mode, where
they are the identity; all claims about `forward`/`generate` hold the
mode fixed.
-/

namespace StoryLLM

abbrev Vec := List ℚ

abbrev Mat := List Vec

/-- The transcendental primitives used by the model, supplied as functions:
`exp` (softmax), `sqrt` (layer norm denominator and the `** -0.5` score
scale), `log` (cross-entropy). -/
structure Prim where
  exp : ℚ → ℚ
  sqrt : ℚ → ℚ
  log : ℚ → ℚ

/-- The one analytic fact claims about softmax need: `exp` is strictly
positive (true of the mathematical `exp` this field idealises). -/
def Prim.ExpPos (P : Prim) : Prop := ∀ a : ℚ, 0 < P.exp a

/-- Dot product of two feature vectors (inner product of matching entries). -/
def dot (a b : Vec) : ℚ := (List.zipWith (· * ·) a b).sum

/-- Elementwise sum of two vectors (`+` on tensors, last axis). -/
def vecAdd (a b : Vec) : Vec := List.zipWith (· + ·) a b

/-- Scalar multiple of a vector. -/
def smul (c : ℚ) (v : Vec) : Vec := v.map (fun a => c * a)

/-- `nn.Linear` state: the stored input width, the `out × in` weight matrix and
the optional bias vector.  `StoryLLM.py` passes `bias=False` for the key /
query / value projections and keeps the default bias elsewhere. -/
structure Linear where
  inFeatures : ℕ
  weight : Mat
  bias : Option Vec

/-- The affine map a `Linear` computes on one position vector (`x @ W.T + b`).
Shape agreement is checked by `Linear.forward`; this is the arithmetic. -/
def Linear.applyU (l : Linear) (x : Vec) : Vec :=
  match l.bias with
  | none => l.weight.map (fun w => dot w x)
  | some b => List.zipWith (fun w bi => dot w x + bi) l.weight b

/-- `nn.Linear.forward` on one position: PyTorch raises a shape error unless
the input width equals `in_features`; embedded as `none` there. -/
def Linear.forward (l : Linear) (x : Vec) : Option Vec :=
  if x.length = l.inFeatures then some (l.applyU x) else none

/-- Output width of a `Linear`, independent of its input. -/
def Linear.outLen (l : Linear) : ℕ :=
  match l.bias with
  | none => l.weight.length
  | some b => min l.weight.length b.length

/-- One attention head (`Head` in `StoryLLM.py`): three bias-free projections
and the size of the registered `tril` buffer. -/
structure Head where
  key : Linear
  query : Linear
  value : Linear
  blockSize : ℕ

/-- Row `i` of `softmax(masked_fill(scores, tril == 0, -inf))` in exact
arithmetic: entries `j ≤ i` get `exp s_j` divided by the sum of `exp` over
the unmasked prefix `j ≤ i` (the masked entries contribute `e^{-inf} = 0`
to the softmax denominator), and entries `j > i` are exactly `0`. -/
def maskedSoftmaxRow (e : ℚ → ℚ) (i : ℕ) (row : Vec) : Vec :=
  let pre := row.take (i + 1)
  let denom := (pre.map e).sum
  pre.map (fun s => e s / denom) ++ List.replicate (row.length - (i + 1)) 0

/-- Helper applying `maskedSoftmaxRow` at the row index carried along. -/
def attnWeightsAux (e : ℚ → ℚ) : ℕ → Mat → Mat
  | _, [] => []
  | i, row :: rest => maskedSoftmaxRow e i row :: attnWeightsAux e (i + 1) rest

/-- The attention weight matrix `wei` of `Head.forward` after the causal
`masked_fill` and the softmax (lines 131-132 of `StoryLLM.py`). -/
def attnWeights (e : ℚ → ℚ) (scores : Mat) : Mat := attnWeightsAux e 0 scores

/-- Raw affinity scores `q @ k.transpose(-2, -1) * scale`. -/
def scoresOf (q k : Mat) (scale : ℚ) : Mat :=
  q.map (fun qi => k.map (fun kj => dot qi kj * scale))

/-- `out[i] = Σ_j w[i][j] • v[j]`, one output row of `wei @ v`. -/
def weightedSum (w : Vec) (v : Mat) : Vec :=
  (List.zipWith smul w v).foldr vecAdd (List.replicate (v.head?.getD []).length 0)

/-- The score scaling factor `k.shape[-1] ** -0.5` (line 130): the
reciprocal square root of the key width. -/
def headScale (P : Prim) (k : Mat) : ℚ :=
  (P.sqrt ((k.head?.getD []).length : ℚ))⁻¹

/-- The pure arithmetic of `Head.forward` once all shape checks have passed:
project to keys, queries and values, form scaled scores, mask and normalise,
and take the weighted sum of values.  The dropout on `wei` is the identity
in evaluation mode. -/
def headCore (P : Prim) (h : Head) (x : Mat) : Mat :=
  let k := x.map h.key.applyU
  let q := x.map h.query.applyU
  let v := x.map h.value.applyU
  let wei := attnWeights P.exp (scoresOf q k (headScale P k))
  wei.map (fun w => weightedSum w v)

/-- `Head.forward` (lines 122-136 of `StoryLLM.py`).  The three projections
run first and each raises on a width mismatch; then the `assert` compares
the unpacked feature width `C` with `key.in_features`; the `masked_fill`
raises when `T` exceeds the `tril` buffer size (the sliced mask would be
smaller than the `T × T` score matrix).  Dropout is the identity in
evaluation mode. -/
def Head.forward (P : Prim) (h : Head) (x : Mat) : Option Mat := do
  let k ← x.mapM h.key.forward
  let q ← x.mapM h.query.forward
  let v ← x.mapM h.value.forward
  if (x.head?.getD []).length = h.key.inFeatures then
    if x.length ≤ h.blockSize then
      let wei := attnWeights P.exp (scoresOf q k (headScale P k))
      some (wei.map (fun w => weightedSum w v))
    else none
  else none

/-- `MultiHeadAttention`: a list of heads (ascending head index, the order
`nn.ModuleList` preserves) and the recombining projection. -/
structure MHA where
  heads : List Head
  proj : Linear

/-- `torch.cat(head_outputs, dim=-1)`: concatenate the per-head outputs
along the feature axis, row by row. -/
def catHeads (outs : List Mat) (T : ℕ) : Mat :=
  outs.foldl (List.zipWith (· ++ ·)) (List.replicate T [])

/-- `MultiHeadAttention.forward` arithmetic (dropout is the identity in
evaluation mode): run every head on the same input, concatenate, project. -/
def MHA.forward (P : Prim) (a : MHA) (x : Mat) : Mat :=
  (catHeads (a.heads.map (fun h => headCore P h x)) x.length).map a.proj.applyU

/-- `FeedForward`: expand, clamp at zero, contract (`nn.Sequential` of
`Linear`, `ReLU`, `Linear`, `Dropout`). -/
structure FeedForward where
  lin1 : Linear
  lin2 : Linear

/-- `ReLU` on one position vector. -/
def relu (v : Vec) : Vec := v.map (fun a => max a 0)

/-- `FeedForward.forward` on one position (the network is position-wise;
dropout is the identity in evaluation mode). -/
def FeedForward.forward (f : FeedForward) (v : Vec) : Vec :=
  f.lin2.applyU (relu (f.lin1.applyU v))

/-- `nn.LayerNorm` state: the learned affine parameters and the epsilon. -/
structure LayerNorm where
  gamma : Vec
  beta : Vec
  eps : ℚ

/-- `nn.LayerNorm.forward` on one position vector: re-centre to zero mean,
rescale by the biased standard deviation guarded by `eps`, then apply the
learned affine transform. -/
def LayerNorm.forward (P : Prim) (ln : LayerNorm) (x : Vec) : Vec :=
  let μ := x.sum / (x.length : ℚ)
  let σsq := (x.map (fun v => (v - μ) ^ 2)).sum / (x.length : ℚ)
  List.zipWith (fun gb v => gb.1 * ((v - μ) / P.sqrt (σsq + ln.eps)) + gb.2)
    (ln.gamma.zip ln.beta) x

/-- `Block`: pre-normalised attention and feed-forward sublayers with
residual connections. -/
structure Block where
  sa : MHA
  ffwd : FeedForward
  ln1 : LayerNorm
  ln2 : LayerNorm

/-- `Block.forward` (lines 185-188 of `StoryLLM.py`):
`x = x + self.sa(self.ln1(x))` then `x = x + self.ffwd(self.ln2(x))`. -/
def Block.forward (P : Prim) (b : Block) (x : Mat) : Mat :=
  let x1 := List.zipWith vecAdd x (MHA.forward P b.sa (x.map (LayerNorm.forward P b.ln1)))
  List.zipWith vecAdd x1 (x1.map (fun p => b.ffwd.forward (LayerNorm.forward P b.ln2 p)))

/-- The block stack `nn.Sequential(*blocks)` applied to one sequence. -/
def blocksForward (P : Prim) (bs : List Block) (x : Mat) : Mat :=
  bs.foldl (fun a b => Block.forward P b a) x

/-- `GPTLanguageModel` state: the construction parameters it stores, the two
embedding tables, the block stack, the final layer norm and the vocabulary
projection. -/
structure GPT where
  vocabSize : ℕ
  nEmbd : ℕ
  blockSize : ℕ
  tokTable : Mat
  posTable : Mat
  blocks : List Block
  lnF : LayerNorm
  lmHead : Linear

/-- The logits value `forward` returns: a rank-3 `(B, T, V)` tensor when no
targets are supplied, and — because line 241 of `StoryLLM.py` reassigns
`logits = logits.reshape(B*T, C)` before `return` — a rank-2 `(B*T, V)`
tensor when targets are supplied. -/
inductive LogitsOut where
  | rank3 (l : List Mat)
  | rank2 (l : Mat)
deriving DecidableEq

/-- The shape of a returned logits tensor, outermost axis first, reading
inner sizes off the first row (all rows are equal-sized for tensor data). -/
def LogitsOut.shape : LogitsOut → List ℕ
  | .rank3 l => [l.length, (l.head?.getD []).length, ((l.head?.getD []).head?.getD []).length]
  | .rank2 l => [l.length, (l.head?.getD []).length]

/-- One term of `F.cross_entropy`: the negative log of the softmax
probability of the target class, `log (Σ_c exp z_c) - z_t` in exact
arithmetic.  PyTorch raises when the target id is out of range. -/
def ceOne (P : Prim) (z : Vec) (t : ℕ) : Option ℚ :=
  (z.get? t).map (fun zt => P.log ((z.map P.exp).sum) - zt)

/-- The sequence-length truncation of `GPTLanguageModel.forward` (line 214):
`T = min(T, self.block_size)` where the incoming `T` is the column count of
the `(B, T)` index tensor. -/
def GPT.truncLen (m : GPT) (idx : List (List ℕ)) : ℕ :=
  min (idx.head?.getD []).length m.blockSize

/-- Lines 210-233 of `GPTLanguageModel.forward`: slice the input columns to
the truncated `T`; look token ids and positions up (an out-of-range id
raises, embedded as `none`); sum token and position embeddings; run the
block stack, the final norm and the vocabulary projection per batch
element.  Produces the rank-3 `(B, T, V)` logits. -/
def GPT.logits3 (P : Prim) (m : GPT) (idx : List (List ℕ)) : Option (List Mat) := do
  let T := m.truncLen idx
  let idx := idx.map (List.take T)
  let tokEmb ← idx.mapM (fun r => r.mapM (fun t => m.tokTable[t]?))
  let posEmb ← (List.range T).mapM (fun p => m.posTable[p]?)
  let x := tokEmb.map (fun tr => List.zipWith vecAdd tr posEmb)
  let x := x.map (blocksForward P m.blocks)
  let x := x.map (fun seq => seq.map (LayerNorm.forward P m.lnF))
  some (x.map (fun seq => seq.map m.lmHead.applyU))

/-- `GPTLanguageModel.forward` (lines 210-245 of `StoryLLM.py`).  With
targets: targets are sliced to the same truncated `T`, logits reshaped to
`(B*T, V)` — and returned in that shape, since line 241 reassigns `logits`
before `return` — targets to `(B*T,)`, raising unless the element counts
agree, and the loss is the mean cross-entropy over all `B*T` positions
jointly (no padding mask). -/
def GPT.forward (P : Prim) (m : GPT) (idx : List (List ℕ))
    (targets : Option (List (List ℕ))) : Option (LogitsOut × Option ℚ) := do
  let logits ← GPT.logits3 P m idx
  match targets with
  | none => some (LogitsOut.rank3 logits, none)
  | some tg =>
      let tg := tg.map (List.take (m.truncLen idx))
      let flat := logits.flatten
      let ftg := tg.flatten
      if ftg.length = flat.length then do
        let ces ← (flat.zip ftg).mapM (fun zt => ceOne P zt.1 zt.2)
        some (LogitsOut.rank2 flat, some (ces.sum / ces.length))
      else none

/-- The plain (unmasked) softmax of one logits row, `F.softmax(z, dim=-1)`
in exact arithmetic. -/
def softmaxRow (e : ℚ → ℚ) (z : Vec) : Vec :=
  z.map (fun a => e a / (z.map e).sum)

/-- `torch.multinomial(probs, num_samples=1)` per batch row, modelled by a
caller-supplied sampler `samp step row probs`; `multinomial` always returns
an index below `probs.length`, which theorems state as a hypothesis. -/
def sampleRows (samp : ℕ → List ℚ → ℕ) : ℕ → List Vec → List ℕ
  | _, [] => []
  | b, p :: rest => samp b p :: sampleRows samp (b + 1) rest

/-- The mutable state of the `generate` loop: the parameters it reads and
the sequence it extends.  Only `idx` is ever reassigned in the loop body. -/
structure GenState where
  model : GPT
  idx : List (List ℕ)

/-- One iteration of `GPTLanguageModel.generate` (lines 249-255): crop each
row to the last `block_size` tokens, run `forward` without targets, keep the
final time step of the logits (raising if `T = 0`), normalise with softmax,
sample one id per row, and append it.  `@torch.no_grad()` disables all
gradient machinery for the call; the loop body never writes a parameter. -/
def genStep (P : Prim) (samp : ℕ → ℕ → List ℚ → ℕ) (step : ℕ) (s : GenState) :
    Option GenState := do
  let idxCond := s.idx.map (fun r => r.drop (r.length - s.model.blockSize))
  let (out, _) ← GPT.forward P s.model idxCond none
  match out with
  | .rank2 _ => none
  | .rank3 logits => do
      let lasts ← logits.mapM List.getLast?
      let probs := lasts.map (softmaxRow P.exp)
      let nexts := sampleRows (samp step) 0 probs
      some { model := s.model, idx := List.zipWith (fun r n => r ++ [n]) s.idx nexts }

/-- `GPTLanguageModel.generate` as explicit state passing: fold `genStep`
over exactly `max_new_tokens` iterations. -/
def generateS (P : Prim) (m : GPT) (samp : ℕ → ℕ → List ℚ → ℕ)
    (idx : List (List ℕ)) (maxNewTokens : ℕ) : Option GenState :=
  (List.range maxNewTokens).foldlM (fun s t => genStep P samp t s) ⟨m, idx⟩

/-- `GPTLanguageModel.generate`: the extended sequence the loop returns. -/
def GPT.generate (P : Prim) (m : GPT) (samp : ℕ → ℕ → List ℚ → ℕ)
    (idx : List (List ℕ)) (maxNewTokens : ℕ) : Option (List (List ℕ)) :=
  (generateS P m samp idx maxNewTokens).map GenState.idx

/-! ## Construction

The constructors mirror `__init__` of each module.  Random weight draws
are modelled by an arbitrary entry source `g : ℕ → ℕ → ℚ` (row, column);
the draws' distribution parameters are the subject of `weightInit` below.
`apply(self._init_weights)` zeroes every `nn.Linear` bias, so constructed
models carry exactly-zero biases; `nn.LayerNorm` keeps its default ones /
zeros affine parameters and `eps = 1e-5`. -/

/-- A fresh `r × c` matrix with entries from the source `g`. -/
def mkMat (g : ℕ → ℕ → ℚ) (r c : ℕ) : Mat :=
  (List.range r).map (fun i => (List.range c).map (fun j => g i j))

/-- `nn.Linear(nin, nout, bias=hasBias)` after `_init_weights` ran: random
weight entries, bias (when present) exactly zero. -/
def Linear.init (nin nout : ℕ) (hasBias : Bool) (g : ℕ → ℕ → ℚ) : Linear :=
  { inFeatures := nin
    weight := mkMat g nout nin
    bias := if hasBias then some (List.replicate nout 0) else none }

/-- `Head.__init__` (line 113): three bias-free projections `n_embd → head_size`
and a `block_size × block_size` `tril` buffer. -/
def Head.init (headSize nEmbd blockSize : ℕ) (g : ℕ → ℕ → ℚ) : Head :=
  { key := Linear.init nEmbd headSize false g
    query := Linear.init nEmbd headSize false g
    value := Linear.init nEmbd headSize false g
    blockSize := blockSize }

/-- `MultiHeadAttention.__init__` (line 141): `n_heads` heads and the
projection `n_heads * head_size → n_embd` (bias kept, zeroed by init).
Line 143 passes the module-level global `block_size` — not a constructor
parameter — to every head; it is threaded here as `gbs`. -/
def MHA.init (nHeads headSize nEmbd gbs : ℕ) (g : ℕ → ℕ → ℚ) : MHA :=
  { heads := (List.range nHeads).map (fun _ => Head.init headSize nEmbd gbs g)
    proj := Linear.init (nHeads * headSize) nEmbd true g }

/-- `FeedForward.__init__` (line 161) with the default `expansion_factor = 4`. -/
def FeedForward.init (nEmbd : ℕ) (g : ℕ → ℕ → ℚ) : FeedForward :=
  { lin1 := Linear.init nEmbd (4 * nEmbd) true g
    lin2 := Linear.init (4 * nEmbd) nEmbd true g }

/-- `nn.LayerNorm(n_embd)` default state: unit scale, zero shift, `eps = 1e-5`. -/
def LayerNorm.init (nEmbd : ℕ) : LayerNorm :=
  { gamma := List.replicate nEmbd 1
    beta := List.replicate nEmbd 0
    eps := 1 / 100000 }

/-- `Block.__init__` (lines 176-183): `head_size = n_embd // n_head` is
Python floor division (`Nat` division), raising `ZeroDivisionError`
exactly when `n_head = 0` (embedded as `none`); there is no divisibility
check.  `gbs` is the ambient global `block_size` the heads capture. -/
def Block.init (nEmbd nHead gbs : ℕ) (g : ℕ → ℕ → ℚ) : Option Block :=
  if nHead = 0 then none
  else
    let headSize := nEmbd / nHead
    some { sa := MHA.init nHead headSize nEmbd gbs g
           ffwd := FeedForward.init nEmbd g
           ln1 := LayerNorm.init nEmbd
           ln2 := LayerNorm.init nEmbd }

/-- `GPTLanguageModel.__init__` (lines 191-200): embedding tables with
random entries, `n_layer` blocks, final norm, vocabulary projection, then
`apply(_init_weights)` (whose value policy is `weightInit` / `biasInit`
below; the zeroed biases are already baked into `Linear.init`).  `gbs` is
the ambient global `block_size` the heads' tril buffers use. -/
def GPT.init (vocabSize nEmbd blockSize nLayer nHead gbs : ℕ) (g : ℕ → ℕ → ℚ) :
    Option GPT := do
  let blocks ← (List.range nLayer).mapM (fun _ => Block.init nEmbd nHead gbs g)
  some { vocabSize := vocabSize
         nEmbd := nEmbd
         blockSize := blockSize
         tokTable := mkMat g vocabSize nEmbd
         posTable := mkMat g blockSize nEmbd
         blocks := blocks
         lnF := LayerNorm.init nEmbd
         lmHead := Linear.init nEmbd vocabSize true g }

/-! ## The `_init_weights` value policy (lines 202-208)

`_init_weights` is applied to every submodule; its observable policy is a
mapping from the module's kind to the normal distribution parameters of the
weight draw and the constant the bias is set to.  `nn.Linear` weights are
drawn from `N(mean = 0.0, std = 0.02)` and any `nn.Linear` bias is zeroed;
`nn.Embedding` weights are drawn from `N(mean = 0.1, std = 0.02)`; other
modules (layer norms) are left untouched. -/

/-- The module kinds `_init_weights` distinguishes with `isinstance`. -/
inductive ModuleKind where
  | linear (hasBias : Bool)
  | embedding
  | layerNorm
deriving DecidableEq

/-- The `(mean, std)` of the normal draw `_init_weights` applies to a
module's weight, or `none` when it leaves the weight untouched. -/
def weightInit : ModuleKind → Option (ℚ × ℚ)
  | .linear _ => some (0, 2 / 100)
  | .embedding => some (1 / 10, 2 / 100)
  | .layerNorm => none

/-- The constant `_init_weights` writes into a module's bias, or `none`
when the module has no bias it touches. -/
def biasInit : ModuleKind → Option ℚ
  | .linear true => some 0
  | _ => none

/-! ## Well-formedness

Shape consistency of a module's parameters, as `__init__` establishes it.
`Head.WF` records that the model-level sequence cap `msl` does not exceed
the head's `tril` buffer (the constructed model uses the global
`block_size` for the buffer and its own parameter for truncation). -/

def Linear.WF (l : Linear) (nin nout : ℕ) : Prop :=
  l.inFeatures = nin ∧ l.weight.length = nout ∧ (∀ r ∈ l.weight, r.length = nin) ∧
    ∀ b ∈ l.bias, b.length = nout

def Head.WF (h : Head) (nEmbd headSize msl : ℕ) : Prop :=
  h.key.WF nEmbd headSize ∧ h.query.WF nEmbd headSize ∧ h.value.WF nEmbd headSize ∧
    msl ≤ h.blockSize

def MHA.WF (a : MHA) (nEmbd msl : ℕ) : Prop :=
  ∃ headSize, (∀ h ∈ a.heads, h.WF nEmbd headSize msl) ∧
    a.proj.WF (a.heads.length * headSize) nEmbd

def LayerNorm.WF (ln : LayerNorm) (nEmbd : ℕ) : Prop :=
  ln.gamma.length = nEmbd ∧ ln.beta.length = nEmbd

def FeedForward.WF (f : FeedForward) (nEmbd : ℕ) : Prop :=
  f.lin1.WF nEmbd (4 * nEmbd) ∧ f.lin2.WF (4 * nEmbd) nEmbd

def Block.WF (b : Block) (nEmbd msl : ℕ) : Prop :=
  b.sa.WF nEmbd msl ∧ b.ffwd.WF nEmbd ∧ b.ln1.WF nEmbd ∧ b.ln2.WF nEmbd

def GPT.WF (m : GPT) : Prop :=
  m.tokTable.length = m.vocabSize ∧ (∀ r ∈ m.tokTable, r.length = m.nEmbd) ∧
    m.posTable.length = m.blockSize ∧ (∀ r ∈ m.posTable, r.length = m.nEmbd) ∧
    (∀ b ∈ m.blocks, b.WF m.nEmbd m.blockSize) ∧ m.lnF.WF m.nEmbd ∧
    m.lmHead.WF m.nEmbd m.vocabSize

/-! ## Generic list lemmas -/

theorem mapM_eq_some_of {α β : Type} (f : α → Option β) (g : α → β) :
    ∀ l : List α, (∀ a ∈ l, f a = some (g a)) → l.mapM f = some (l.map g) := by
  intro l
  induction l with
  | nil => intro _; rfl
  | cons a l ih =>
      intro h
      rw [List.map_cons, List.mapM_cons, h a (by simp), ih (fun b hb => h b (by simp [hb]))]
      rfl

/-- A successful `mapM` is the plain `map` of the unchecked values, and every
element passed the check; stated for `Linear.forward` against `applyU`. -/
theorem mapM_linear_eq {l : Linear} :
    ∀ {x : Mat} {k : Mat}, x.mapM l.forward = some k →
      k = x.map l.applyU ∧ ∀ r ∈ x, r.length = l.inFeatures := by
  intro x
  induction x with
  | nil =>
      intro k h
      cases h
      exact ⟨rfl, by simp⟩
  | cons a x ih =>
      intro k h
      rw [List.mapM_cons] at h
      simp only [Option.bind_eq_bind, Option.bind_eq_some] at h
      obtain ⟨b, hb, rest, hrest, hk⟩ := h
      obtain ⟨hrec, hlen⟩ := ih hrest
      unfold Linear.forward at hb
      by_cases hc : a.length = l.inFeatures
      · rw [if_pos hc] at hb
        cases hb
        cases hk
        refine ⟨by rw [List.map_cons, hrec], ?_⟩
        intro r hr
        rcases List.mem_cons.mp hr with h1 | h2
        · rw [h1]; exact hc
        · exact hlen r h2
      · rw [if_neg hc] at hb; cases hb

theorem zipWith_mem {α β γ : Type} {f : α → β → γ} :
    ∀ {a : List α} {b : List β} {c : γ}, c ∈ List.zipWith f a b →
      ∃ x y, x ∈ a ∧ y ∈ b ∧ c = f x y := by
  intro a
  induction a with
  | nil => intro b c h; simp at h
  | cons x a ih =>
      intro b c h
      cases b with
      | nil => simp at h
      | cons y b =>
          rcases List.mem_cons.mp h with h1 | h2
          · exact ⟨x, y, by simp, by simp, h1⟩
          · obtain ⟨u, v, hu, hv, hc⟩ := ih h2
            exact ⟨u, v, by simp [hu], by simp [hv], hc⟩

/-! ## Shape lemmas -/

theorem applyU_length (l : Linear) (x : Vec) : (l.applyU x).length = l.outLen := by
  unfold Linear.applyU Linear.outLen
  cases l.bias <;> simp

theorem smul_length (c : ℚ) (v : Vec) : (smul c v).length = v.length := by
  simp [smul]

theorem vecAdd_length (a b : Vec) : (vecAdd a b).length = min a.length b.length := by
  simp [vecAdd]

theorem foldr_vecAdd_length {n : ℕ} :
    ∀ (l : List Vec) (init : Vec), (∀ r ∈ l, r.length = n) → init.length = n →
      (l.foldr vecAdd init).length = n := by
  intro l
  induction l with
  | nil => intro init _ h; simpa using h
  | cons a l ih =>
      intro init h hinit
      have ha : a.length = n := h a (by simp)
      have hrec := ih init (fun r hr => h r (by simp [hr])) hinit
      simp [List.foldr_cons, vecAdd_length, ha, hrec]

theorem weightedSum_length {n : ℕ} (w : Vec) (v : Mat)
    (hv : ∀ r ∈ v, r.length = n) (hne : v ≠ []) : (weightedSum w v).length = n := by
  unfold weightedSum
  have hhead : (v.head?.getD []).length = n := by
    cases v with
    | nil => exact absurd rfl hne
    | cons a v => exact hv a (by simp)
  rw [hhead]
  refine foldr_vecAdd_length _ _ ?_ (by simp)
  intro r hr
  obtain ⟨c, y, _, hy, hc⟩ := zipWith_mem hr
  rw [hc, smul_length]
  exact hv y hy

theorem maskedSoftmaxRow_length (e : ℚ → ℚ) (i : ℕ) (row : Vec) :
    (maskedSoftmaxRow e i row).length = row.length := by
  simp only [maskedSoftmaxRow, List.length_append, List.length_map, List.length_take,
    List.length_replicate]
  omega

theorem attnWeightsAux_length (e : ℚ → ℚ) :
    ∀ (i : ℕ) (s : Mat), (attnWeightsAux e i s).length = s.length := by
  intro i s
  induction s generalizing i with
  | nil => rfl
  | cons row rest ih => simp [attnWeightsAux, ih]

theorem attnWeightsAux_getElem? (e : ℚ → ℚ) :
    ∀ (s : Mat) (i t : ℕ),
      (attnWeightsAux e i s)[t]? = (s[t]?).map (maskedSoftmaxRow e (i + t)) := by
  intro s
  induction s with
  | nil => intro i t; simp [attnWeightsAux]
  | cons row rest ih =>
      intro i t
      cases t with
      | zero => simp [attnWeightsAux]
      | succ t =>
          simp only [attnWeightsAux, List.getElem?_cons_succ]
          rw [ih (i + 1) t, show i + 1 + t = i + (t + 1) from by omega]

theorem attnWeights_getElem? (e : ℚ → ℚ) (s : Mat) (t : ℕ) :
    (attnWeights e s)[t]? = (s[t]?).map (maskedSoftmaxRow e t) := by
  rw [attnWeights, attnWeightsAux_getElem?]
  simp

theorem headCore_length (P : Prim) (h : Head) (x : Mat) :
    (headCore P h x).length = x.length := by
  simp [headCore, attnWeights, attnWeightsAux_length, scoresOf]

theorem headCore_width (P : Prim) (h : Head) (x : Mat) :
    ∀ r ∈ headCore P h x, r.length = h.value.outLen := by
  intro r hr
  unfold headCore at hr
  simp only [List.mem_map] at hr
  obtain ⟨w, hwmem, hw⟩ := hr
  cases x with
  | nil => simp [scoresOf, attnWeights, attnWeightsAux] at hwmem
  | cons a x =>
      rw [← hw]
      refine weightedSum_length w _ ?_ (by simp)
      intro v hv
      simp only [List.map_cons, List.mem_cons, List.mem_map] at hv
      rcases hv with h1 | h2
      · rw [h1]; exact applyU_length _ _
      · obtain ⟨u, _, hu⟩ := h2
        rw [← hu]; exact applyU_length _ _

theorem catHeads_length {T : ℕ} :
    ∀ outs : List Mat, (∀ o ∈ outs, o.length = T) → (catHeads outs T).length = T := by
  have aux : ∀ (outs : List Mat) (acc : Mat), (∀ o ∈ outs, o.length = T) →
      acc.length = T → (outs.foldl (List.zipWith (· ++ ·)) acc).length = T := by
    intro outs
    induction outs with
    | nil => intro acc _ hacc; simpa using hacc
    | cons o outs ih =>
        intro acc h hacc
        rw [List.foldl_cons]
        refine ih _ (fun u hu => h u (by simp [hu])) ?_
        rw [List.length_zipWith, hacc, h o (by simp)]
        simp
  intro outs h
  exact aux outs _ h (by simp)

theorem mha_length (P : Prim) (a : MHA) (x : Mat) :
    (MHA.forward P a x).length = x.length := by
  unfold MHA.forward
  rw [List.length_map]
  refine catHeads_length _ ?_
  intro o ho
  simp only [List.mem_map] at ho
  obtain ⟨h, _, hh⟩ := ho
  rw [← hh, headCore_length]

theorem mha_width (P : Prim) (a : MHA) (x : Mat) :
    ∀ r ∈ MHA.forward P a x, r.length = a.proj.outLen := by
  intro r hr
  unfold MHA.forward at hr
  simp only [List.mem_map] at hr
  obtain ⟨u, _, hu⟩ := hr
  rw [← hu]; exact applyU_length _ _

theorem ln_length (P : Prim) (ln : LayerNorm) (x : Vec) :
    (LayerNorm.forward P ln x).length = min (min ln.gamma.length ln.beta.length) x.length := by
  simp [LayerNorm.forward]

theorem ffwd_length (f : FeedForward) (v : Vec) :
    (f.forward v).length = f.lin2.outLen := by
  unfold FeedForward.forward
  exact applyU_length _ _

theorem block_length (P : Prim) (b : Block) (x : Mat) :
    (Block.forward P b x).length = x.length := by
  unfold Block.forward
  rw [List.length_zipWith, List.length_map, List.length_zipWith, mha_length]
  simp

theorem block_width {nEmbd msl : ℕ} (P : Prim) (b : Block) (x : Mat)
    (hwf : b.WF nEmbd msl) (hx : ∀ r ∈ x, r.length = nEmbd) :
    ∀ r ∈ Block.forward P b x, r.length = nEmbd := by
  obtain ⟨⟨hs, hheads, hproj⟩, ⟨hf1, hf2⟩, hln1, hln2⟩ := hwf
  intro r hr
  unfold Block.forward at hr
  have hx1 : ∀ r ∈ List.zipWith vecAdd x
      (MHA.forward P b.sa (x.map (LayerNorm.forward P b.ln1))), r.length = nEmbd := by
    intro u hu
    obtain ⟨p, q, hp, hq, hpq⟩ := zipWith_mem hu
    rw [hpq, vecAdd_length, hx p hp, mha_width P b.sa _ q hq]
    have : b.sa.proj.outLen = nEmbd := by
      unfold Linear.outLen
      obtain ⟨_, hwl, _, hb⟩ := hproj
      cases hbias : b.sa.proj.bias with
      | none => simp [hbias] at hwl ⊢; exact hwl
      | some bv =>
          simp [hbias] at hwl hb ⊢
          omega
    rw [this]; simp
  obtain ⟨p, q, hp, hq, hpq⟩ := zipWith_mem hr
  simp only [List.mem_map] at hq
  obtain ⟨u, hu, huq⟩ := hq
  rw [hpq, vecAdd_length, hx1 p hp, ← huq, ffwd_length]
  have : b.ffwd.lin2.outLen = nEmbd := by
    unfold Linear.outLen
    obtain ⟨_, hwl, _, hb⟩ := hf2
    cases hbias : b.ffwd.lin2.bias with
    | none => simp [hbias] at hwl ⊢; exact hwl
    | some bv =>
        simp [hbias] at hwl hb ⊢
        omega
  rw [this]; simp

theorem blocksForward_length (P : Prim) (bs : List Block) (x : Mat) :
    (blocksForward P bs x).length = x.length := by
  unfold blocksForward
  induction bs generalizing x with
  | nil => rfl
  | cons b bs ih =>
      rw [List.foldl_cons, ih, block_length]

theorem blocksForward_width {nEmbd msl : ℕ} (P : Prim) (bs : List Block) (x : Mat)
    (hwf : ∀ b ∈ bs, b.WF nEmbd msl) (hx : ∀ r ∈ x, r.length = nEmbd) :
    ∀ r ∈ blocksForward P bs x, r.length = nEmbd := by
  unfold blocksForward
  induction bs generalizing x with
  | nil => intro r hr; exact hx r hr
  | cons b bs ih =>
      rw [List.foldl_cons]
      exact ih _ (fun u hu => hwf u (by simp [hu]))
        (block_width P b x (hwf b (by simp)) hx)

theorem Linear.outLen_of_WF {l : Linear} {nin nout : ℕ} (h : l.WF nin nout) :
    l.outLen = nout := by
  obtain ⟨_, hwl, _, hb⟩ := h
  unfold Linear.outLen
  cases hbias : l.bias with
  | none => exact hwl
  | some bv =>
      have hbl := hb bv (by rw [hbias]; rfl)
      simp [hwl, hbl]

theorem getElem?_some_getD {α : Type} {l : List α} {n : ℕ} (d : α) (h : n < l.length) :
    l[n]? = some (l.getD n d) := by
  rw [List.getElem?_eq_getElem h, List.getD_eq_getElem l d h]

theorem flatten_length_uniform {T : ℕ} :
    ∀ {lg : List Mat}, (∀ s ∈ lg, s.length = T) → lg.flatten.length = lg.length * T := by
  intro lg
  induction lg with
  | nil => intro _; simp
  | cons s lg ih =>
      intro h
      rw [List.flatten_cons, List.length_append, h s (by simp),
        ih (fun u hu => h u (by simp [hu])), List.length_cons]
      ring

theorem flatten_length_uniform_nat {T : ℕ} :
    ∀ {lg : List (List ℕ)}, (∀ s ∈ lg, s.length = T) → lg.flatten.length = lg.length * T := by
  intro lg
  induction lg with
  | nil => intro _; simp
  | cons s lg ih =>
      intro h
      rw [List.flatten_cons, List.length_append, h s (by simp),
        ih (fun u hu => h u (by simp [hu])), List.length_cons]
      ring

/-- The truncated length equals `min L block_size` on a uniform nonempty
batch whose rows have length `L`. -/
theorem truncLen_eq {m : GPT} {idx : List (List ℕ)} {L : ℕ}
    (hL : ∀ r ∈ idx, r.length = L) (hne : idx ≠ []) :
    m.truncLen idx = min L m.blockSize := by
  unfold GPT.truncLen
  cases idx with
  | nil => exact absurd rfl hne
  | cons r idx => rw [List.head?_cons, Option.getD_some, hL r (by simp)]

/-- Success and shape of the rank-3 logits: on a uniform batch of valid
token ids the pipeline runs to completion and produces `(B, min L bs, V)`
logits. -/
theorem GPT.logits3_shape (P : Prim) (m : GPT) (hwf : m.WF)
    {idx : List (List ℕ)} {L : ℕ}
    (hL : ∀ r ∈ idx, r.length = L)
    (hids : ∀ r ∈ idx, ∀ t ∈ r, t < m.vocabSize) :
    ∃ lg, GPT.logits3 P m idx = some lg ∧ lg.length = idx.length ∧
      ∀ s ∈ lg, s.length = min L m.blockSize ∧ ∀ v ∈ s, v.length = m.vocabSize := by
  obtain ⟨htokL, htokW, hposL, hposW, hblocks, hlnF, hlm⟩ := hwf
  cases hne : idx with
  | nil =>
      refine ⟨[], ?_, by simp, by simp⟩
      simp only [GPT.logits3, GPT.truncLen, List.head?_nil, Option.getD_none,
        List.length_nil, Nat.zero_min, List.range_zero, List.map_nil]
      rfl
  | cons r0 rest =>
      rw [← hne]
      have hT : m.truncLen idx = min L m.blockSize := truncLen_eq hL (by rw [hne]; simp)
      set T := m.truncLen idx with hTdef
      have hTle : T ≤ L := by rw [hT]; exact min_le_left _ _
      have hTbs : T ≤ m.blockSize := by rw [hT]; exact min_le_right _ _
      -- the explicit stage values
      set tokG : ℕ → Vec := fun t => m.tokTable.getD t [] with htokG
      set posG : List Vec := (List.range T).map (fun p => m.posTable.getD p []) with hposG
      set tokEmb : List Mat := (idx.map (List.take T)).map (fun r => r.map tokG) with htokEmb
      set x1 : List Mat := tokEmb.map (fun tr => List.zipWith vecAdd tr posG) with hx1
      set x2 : List Mat := x1.map (blocksForward P m.blocks) with hx2
      set x3 : List Mat := x2.map (fun seq => seq.map (LayerNorm.forward P m.lnF)) with hx3
      set lg : List Mat := x3.map (fun seq => seq.map m.lmHead.applyU) with hlg
      -- token embedding lookups
      have htok : (idx.map (List.take T)).mapM (fun r => r.mapM (fun t => m.tokTable[t]?)) =
          some tokEmb := by
        rw [htokEmb]
        refine mapM_eq_some_of _ _ _ ?_
        intro r hr
        refine mapM_eq_some_of _ _ _ ?_
        intro t ht
        obtain ⟨r0', hr0', htake⟩ := List.mem_map.mp hr
        have htmem : t ∈ r0' := List.mem_of_mem_take (by rw [htake]; exact ht)
        rw [htokG]
        exact getElem?_some_getD [] (by rw [htokL]; exact hids r0' hr0' t htmem)
      -- position embedding lookups
      have hpos : (List.range T).mapM (fun p => m.posTable[p]?) = some posG := by
        rw [hposG]
        refine mapM_eq_some_of _ _ _ ?_
        intro p hp
        have : p < T := List.mem_range.mp hp
        exact getElem?_some_getD [] (by rw [hposL]; omega)
      have hposGlen : posG.length = T := by rw [hposG]; simp
      have hposGW : ∀ v ∈ posG, v.length = m.nEmbd := by
        intro v hv
        obtain ⟨p, hp, hpv⟩ := List.mem_map.mp hv
        have hplt : p < m.posTable.length := by
          rw [hposL]; have := List.mem_range.mp hp; omega
        rw [← hpv, List.getD_eq_getElem _ _ hplt]
        exact hposW _ (List.getElem_mem hplt)
      refine ⟨lg, ?_, ?_, ?_⟩
      · simp only [GPT.logits3]
        rw [← hTdef, htok, hpos]
        simp only [Option.bind_eq_bind, Option.some_bind]
      · rw [hlg, hx3, hx2, hx1, htokEmb]; simp
      · intro s hs
        obtain ⟨s3, hs3, hsdef⟩ := List.mem_map.mp hs
        obtain ⟨s2, hs2, hs3def⟩ := List.mem_map.mp hs3
        obtain ⟨s1, hs1, hs2def⟩ := List.mem_map.mp hs2
        obtain ⟨tr, htr, hs1def⟩ := List.mem_map.mp hs1
        obtain ⟨rt, hrt, htrdef⟩ := List.mem_map.mp htr
        obtain ⟨rr, hrr, hrtdef⟩ := List.mem_map.mp hrt
        have htrlen : tr.length = T := by
          rw [← htrdef, List.length_map, ← hrtdef, List.length_take, hL rr hrr]
          omega
        have htrW : ∀ v ∈ tr, v.length = m.nEmbd := by
          intro v hv
          rw [← htrdef] at hv
          obtain ⟨t, ht, htv⟩ := List.mem_map.mp hv
          have htmem : t ∈ rr := List.mem_of_mem_take (by rw [hrtdef]; exact ht)
          have htlt : t < m.tokTable.length := by
            rw [htokL]; exact hids rr hrr t htmem
          rw [← htv]
          simp only [htokG]
          rw [List.getD_eq_getElem _ _ htlt]
          exact htokW _ (List.getElem_mem htlt)
        have hs1len : s1.length = T := by
          rw [← hs1def, List.length_zipWith, htrlen, hposGlen]; simp
        have hs1W : ∀ v ∈ s1, v.length = m.nEmbd := by
          intro v hv
          rw [← hs1def] at hv
          obtain ⟨a, b, ha, hb, hab⟩ := zipWith_mem hv
          rw [hab, vecAdd_length, htrW a ha, hposGW b hb]
          simp
        have hs2len : s2.length = T := by
          rw [← hs2def, blocksForward_length, hs1len]
        have hs2W : ∀ v ∈ s2, v.length = m.nEmbd := by
          rw [← hs2def]
          exact blocksForward_width P m.blocks s1 hblocks hs1W
        have hs3len : s3.length = T := by rw [← hs3def, List.length_map, hs2len]
        have hs3W : ∀ v ∈ s3, v.length = m.nEmbd := by
          intro v hv
          rw [← hs3def] at hv
          obtain ⟨u, hu, huv⟩ := List.mem_map.mp hv
          rw [← huv, ln_length, hlnF.1, hlnF.2, hs2W u hu]
          simp
        constructor
        · rw [← hsdef, List.length_map, hs3len, hT]
        · intro v hv
          rw [← hsdef] at hv
          obtain ⟨u, _, huv⟩ := List.mem_map.mp hv
          rw [← huv, applyU_length, Linear.outLen_of_WF hlm]

theorem GPT.truncLen_nil (m : GPT) : m.truncLen [] = 0 := by
  simp [GPT.truncLen]

theorem GPT.forward_none {P : Prim} {m : GPT} {idx : List (List ℕ)} {lg : List Mat}
    (h : GPT.logits3 P m idx = some lg) :
    GPT.forward P m idx none = some (LogitsOut.rank3 lg, none) := by
  unfold GPT.forward
  rw [h]
  rfl

/-- Success and shape of `forward` with targets on a uniform valid batch:
the call returns the `(B*T, V)`-reshaped logits together with a loss
value, where `T = min L block_size`. -/
theorem GPT.forward_some_shape (P : Prim) (m : GPT) (hwf : m.WF)
    {idx tg : List (List ℕ)} {L M : ℕ}
    (hL : ∀ r ∈ idx, r.length = L)
    (hids : ∀ r ∈ idx, ∀ t ∈ r, t < m.vocabSize)
    (htgL : ∀ r ∈ tg, r.length = M)
    (htgv : ∀ r ∈ tg, ∀ t ∈ r, t < m.vocabSize)
    (hB : tg.length = idx.length)
    (hM : min L m.blockSize ≤ M) :
    ∃ flat loss, GPT.forward P m idx (some tg) = some (LogitsOut.rank2 flat, some loss) ∧
      flat.length = idx.length * min L m.blockSize ∧
      ∀ v ∈ flat, v.length = m.vocabSize := by
  obtain ⟨lg, hlg, hlgB, hlgS⟩ := GPT.logits3_shape P m hwf hL hids
  set T := m.truncLen idx with hTdef
  have hT : T = min L m.blockSize ∨ (idx = [] ∧ T = 0) := by
    cases hne : idx with
    | nil => right; exact ⟨rfl, by rw [hTdef, hne, GPT.truncLen_nil]⟩
    | cons a b => left; rw [hTdef]; exact truncLen_eq hL (by rw [hne]; simp)
  have hflatlen : lg.flatten.length = idx.length * min L m.blockSize := by
    rw [flatten_length_uniform (fun s hs => (hlgS s hs).1), hlgB]
  have hftglen : (tg.map (List.take T)).flatten.length = idx.length * min L m.blockSize := by
    rcases hT with h1 | ⟨h1, h2⟩
    · rw [flatten_length_uniform_nat (T := min L m.blockSize) ?_, List.length_map, hB]
      intro s hs
      obtain ⟨r, hr, hrs⟩ := List.mem_map.mp hs
      rw [← hrs, List.length_take, htgL r hr, h1]
      omega
    · have htg : tg = [] := List.eq_nil_of_length_eq_zero (by rw [hB, h1]; rfl)
      rw [htg, h1]
      simp
  have hcnt : (tg.map (List.take T)).flatten.length = lg.flatten.length := by
    rw [hftglen, hflatlen]
  have hflatW : ∀ v ∈ lg.flatten, v.length = m.vocabSize := by
    intro v hv
    obtain ⟨s, hs, hvs⟩ := List.mem_flatten.mp hv
    exact (hlgS s hs).2 v hvs
  have hftgv : ∀ t ∈ (tg.map (List.take T)).flatten, t < m.vocabSize := by
    intro t ht
    obtain ⟨s, hs, hts⟩ := List.mem_flatten.mp ht
    obtain ⟨r, hr, hrs⟩ := List.mem_map.mp hs
    exact htgv r hr t (List.mem_of_mem_take (by rw [hrs]; exact hts))
  have hces : (lg.flatten.zip ((tg.map (List.take T)).flatten)).mapM
      (fun zt => ceOne P zt.1 zt.2) =
      some ((lg.flatten.zip ((tg.map (List.take T)).flatten)).map
        (fun zt => P.log ((zt.1.map P.exp).sum) - zt.1.getD zt.2 0)) := by
    refine mapM_eq_some_of _ _ _ ?_
    intro zt hzt
    have hmem := List.of_mem_zip hzt
    unfold ceOne
    rw [List.get?_eq_getElem?, getElem?_some_getD 0
      (by rw [hflatW zt.1 hmem.1]; exact hftgv zt.2 hmem.2)]
    rfl
  set ces : List ℚ := (lg.flatten.zip ((tg.map (List.take T)).flatten)).map
    (fun zt => P.log ((zt.1.map P.exp).sum) - zt.1.getD zt.2 0) with hcesdef
  refine ⟨lg.flatten, ces.sum / ces.length, ?_, by rw [hflatlen], hflatW⟩
  unfold GPT.forward
  rw [hlg]
  simp only [Option.bind_eq_bind, Option.some_bind]
  rw [← hTdef, if_pos hcnt, hces]
  rfl

/-! ## Causality

The causal-mask noninterference argument.  A map on sequences is
*prefix-causal* when its output prefix of any length is determined by the
input prefix of the same length (for same-length inputs). -/

def CausalMap (f : Mat → Mat) : Prop :=
  ∀ (x y : Mat) (n : ℕ), x.length = y.length → x.take n = y.take n →
    (f x).take n = (f y).take n

theorem causal_map (g : Vec → Vec) : CausalMap (fun x => x.map g) := by
  intro x y n _ htake
  show (x.map g).take n = (y.map g).take n
  rw [← List.map_take, ← List.map_take, htake]

theorem getElem?_map_const {α β : Type} (c : β) (l : List α) (i : ℕ) :
    (l.map (fun _ => c))[i]? = if i < l.length then some c else none := by
  rcases Nat.lt_or_ge i l.length with h | h
  · rw [List.getElem?_map, List.getElem?_eq_getElem h]
    simp [h]
  · rw [List.getElem?_eq_none_iff.mpr (by simpa using h), if_neg (by omega)]

theorem smul_zero_congr {a b : Vec} (h : a.length = b.length) : smul 0 a = smul 0 b := by
  have hz : ∀ v : Vec, smul 0 v = v.map (fun _ => (0 : ℚ)) := by
    intro v
    unfold smul
    exact List.map_congr_left (fun a _ => zero_mul a)
  rw [hz, hz]
  apply List.ext_getElem?
  intro i
  rw [getElem?_map_const, getElem?_map_const, h]

theorem zipWith_smul_congr :
    ∀ (w : Vec) (v v2 : Mat), v.length = v2.length →
      (∀ j : ℕ, v[j]?.map List.length = v2[j]?.map List.length) →
      (∀ j : ℕ, w[j]? = some 0 ∨ v[j]? = v2[j]?) →
      List.zipWith smul w v = List.zipWith smul w v2 := by
  intro w
  induction w with
  | nil => intro v v2 _ _ _; simp
  | cons c w ih =>
      intro v v2 hlen hwidth hz
      cases v with
      | nil =>
          cases v2 with
          | nil => rfl
          | cons b v2 => simp at hlen
      | cons a v =>
          cases v2 with
          | nil => simp at hlen
          | cons b v2 =>
              rw [List.zipWith_cons_cons, List.zipWith_cons_cons]
              have hhead : smul c a = smul c b := by
                rcases hz 0 with h0 | h0
                · simp only [List.getElem?_cons_zero, Option.some.injEq] at h0
                  rw [h0]
                  refine smul_zero_congr ?_
                  have := hwidth 0
                  simp only [List.getElem?_cons_zero, Option.map_some] at this
                  exact Option.some.inj this
                · simp only [List.getElem?_cons_zero, Option.some.injEq] at h0
                  rw [h0]
              rw [hhead, ih v v2 (by simpa using hlen)
                (fun j => by have := hwidth (j + 1); simpa using this)
                (fun j => by have := hz (j + 1); simpa using this)]

theorem weightedSum_congr {w : Vec} {v v2 : Mat}
    (hlen : v.length = v2.length)
    (hwidth : ∀ j : ℕ, v[j]?.map List.length = v2[j]?.map List.length)
    (hz : ∀ j : ℕ, w[j]? = some 0 ∨ v[j]? = v2[j]?) :
    weightedSum w v = weightedSum w v2 := by
  unfold weightedSum
  rw [zipWith_smul_congr w v v2 hlen hwidth hz]
  have hhead : (v.head?.getD []).length = (v2.head?.getD []).length := by
    cases v with
    | nil =>
        cases v2 with
        | nil => rfl
        | cons b v2 => simp at hlen
    | cons a v =>
        cases v2 with
        | nil => simp at hlen
        | cons b v2 =>
            have := hwidth 0
            simp only [List.getElem?_cons_zero, Option.map_some] at this
            simpa using Option.some.inj this
  rw [hhead]

/-- Every entry of a masked softmax row strictly beyond the mask diagonal is
exactly zero. -/
theorem maskedSoftmaxRow_getElem?_of_gt {e : ℚ → ℚ} {i j : ℕ} {row : Vec}
    (hij : i < j) (hj : j < row.length) :
    (maskedSoftmaxRow e i row)[j]? = some 0 := by
  unfold maskedSoftmaxRow
  have hpre : ((row.take (i + 1)).map (fun s => e s / ((row.take (i + 1)).map e).sum)).length
      = i + 1 := by
    rw [List.length_map, List.length_take]
    omega
  rw [List.getElem?_append_right (by rw [hpre]; omega)]
  rw [hpre, List.getElem?_replicate]
  rw [if_pos (by omega)]

theorem take_get_eq {α : Type} {x y : List α} {n i : ℕ} (hi : i < n)
    (h : x.take n = y.take n) : x[i]? = y[i]? := by
  rw [← List.getElem?_take_of_lt (l := x) hi, h, List.getElem?_take_of_lt hi]

/-- `headCore` is prefix-causal: with the future masked out, output rows up
to position `n` are unchanged by any change of the input beyond `n`. -/
theorem headCore_causal (P : Prim) (h : Head) : CausalMap (headCore P h) := by
  intro x y n hlen htake
  -- the output rows at index i < n agree
  apply List.ext_getElem?
  intro i
  rcases Nat.lt_or_ge i n with hin | hin
  · rw [List.getElem?_take_of_lt hin, List.getElem?_take_of_lt hin]
    -- unfold both sides to the row formula
    unfold headCore
    simp only [List.getElem?_map, attnWeights_getElem?]
    rw [show (scoresOf (x.map h.query.applyU) (x.map h.key.applyU)
        (headScale P (x.map h.key.applyU)))[i]? =
        (x[i]?).map (fun xi => (x.map h.key.applyU).map
          (fun kj => dot (h.query.applyU xi) kj *
            headScale P (x.map h.key.applyU))) from by
      unfold scoresOf
      rw [List.getElem?_map, List.getElem?_map, Option.map_map]
      rfl]
    rw [show (scoresOf (y.map h.query.applyU) (y.map h.key.applyU)
        (headScale P (y.map h.key.applyU)))[i]? =
        (y[i]?).map (fun yi => (y.map h.key.applyU).map
          (fun kj => dot (h.query.applyU yi) kj *
            headScale P (y.map h.key.applyU))) from by
      unfold scoresOf
      rw [List.getElem?_map, List.getElem?_map, Option.map_map]
      rfl]
    have hxyi : x[i]? = y[i]? := take_get_eq hin htake
    rw [← hxyi]
    cases hxi : x[i]? with
    | none => rfl
    | some xi =>
        simp only [Option.map_map, Option.map_some', Function.comp_apply, Option.some.injEq]
        -- x and y are nonempty, so the scales agree
        have hxne : x ≠ [] := by
          intro hx
          rw [hx] at hxi
          simp at hxi
        have hyne : y ≠ [] := by
          intro hy
          rw [hy] at hlen
          simp at hlen
          exact hxne hlen
        have hn1 : 1 ≤ n := by omega
        have hscale : headScale P (x.map h.key.applyU) = headScale P (y.map h.key.applyU) := by
          unfold headScale
          cases x with
          | nil => exact absurd rfl hxne
          | cons a x2 =>
              cases y with
              | nil => exact absurd rfl hyne
              | cons b y2 =>
                  simp only [List.map_cons, List.head?_cons, Option.getD_some]
                  rw [applyU_length, applyU_length]
        rw [← hscale]
        -- the masked rows agree: they see only keys up to index i
        have hxypre : x.take (i + 1) = y.take (i + 1) := by
          have h2 := congrArg (List.take (i + 1)) htake
          rw [List.take_take, List.take_take] at h2
          rwa [show (i + 1) ⊓ n = i + 1 from by omega] at h2
        have hkpre : (x.map h.key.applyU).take (i + 1) = (y.map h.key.applyU).take (i + 1) := by
          rw [← List.map_take, ← List.map_take, hxypre]
        have hklen : (x.map h.key.applyU).length = (y.map h.key.applyU).length := by
          rw [List.length_map, List.length_map, hlen]
        set srx : Vec := (x.map h.key.applyU).map
          (fun kj => dot (h.query.applyU xi) kj * headScale P (x.map h.key.applyU)) with hsrx
        set sry : Vec := (y.map h.key.applyU).map
          (fun kj => dot (h.query.applyU xi) kj * headScale P (x.map h.key.applyU)) with hsry
        have hrow : maskedSoftmaxRow P.exp i srx = maskedSoftmaxRow P.exp i sry := by
          unfold maskedSoftmaxRow
          have h1 : srx.take (i + 1) = sry.take (i + 1) := by
            rw [hsrx, hsry]
            conv_lhs => rw [← List.map_take]
            conv_rhs => rw [← List.map_take]
            rw [hkpre]
          have h2 : srx.length = sry.length := by
            rw [hsrx, hsry]
            simp only [List.length_map]
            exact hlen
          rw [h1, h2]
        rw [hrow]
        -- the weighted sum ignores values beyond index i, where weights vanish
        refine weightedSum_congr ?_ ?_ ?_
        · rw [List.length_map, List.length_map, hlen]
        · intro j
          rw [List.getElem?_map, List.getElem?_map]
          rcases Nat.lt_or_ge j x.length with hjlt | hjge
          · rw [List.getElem?_eq_getElem hjlt,
              List.getElem?_eq_getElem (show j < y.length by omega)]
            simp only [Option.map_some']
            rw [applyU_length, applyU_length]
          · rw [List.getElem?_eq_none_iff.mpr hjge,
              List.getElem?_eq_none_iff.mpr (show y.length ≤ j by omega)]
        · intro j
          rcases Nat.lt_or_ge j (i + 1) with hji | hji
          · right
            rw [List.getElem?_map, List.getElem?_map, take_get_eq (show j < n by omega) htake]
          · rcases Nat.lt_or_ge j x.length with hjx | hjx
            · left
              refine maskedSoftmaxRow_getElem?_of_gt (by omega) ?_
              rw [hsry, List.length_map, List.length_map]
              omega
            · right
              rw [List.getElem?_map, List.getElem?_map,
                List.getElem?_eq_none_iff.mpr hjx,
                List.getElem?_eq_none_iff.mpr (show y.length ≤ j by omega)]
  · rw [List.getElem?_eq_none_iff.mpr, List.getElem?_eq_none_iff.mpr]
    · rw [List.length_take, headCore_length, ← hlen]
      omega
    · rw [List.length_take, headCore_length]
      omega

theorem catHeads_causal_aux (P : Prim) {x y : Mat} {n : ℕ}
    (hlen : x.length = y.length) (htake : x.take n = y.take n) :
    ∀ (hs : List Head) (acc acc2 : Mat), acc.take n = acc2.take n →
      ((hs.map (fun h => headCore P h x)).foldl (List.zipWith (· ++ ·)) acc).take n =
      ((hs.map (fun h => headCore P h y)).foldl (List.zipWith (· ++ ·)) acc2).take n := by
  intro hs
  induction hs with
  | nil => intro acc acc2 hacc; simpa using hacc
  | cons h hs ih =>
      intro acc acc2 hacc
      rw [List.map_cons, List.map_cons, List.foldl_cons, List.foldl_cons]
      refine ih _ _ ?_
      rw [List.take_zipWith, List.take_zipWith, hacc, headCore_causal P h x y n hlen htake]

theorem mha_causal (P : Prim) (a : MHA) : CausalMap (MHA.forward P a) := by
  intro x y n hlen htake
  unfold MHA.forward
  rw [← List.map_take, ← List.map_take]
  congr 1
  unfold catHeads
  refine catHeads_causal_aux P hlen htake a.heads _ _ ?_
  rw [List.take_replicate, List.take_replicate, hlen]

theorem take_residual_congr {A B : Mat} {f : Vec → Vec} {n : ℕ}
    (_hlen : A.length = B.length) (h : A.take n = B.take n) :
    (List.zipWith vecAdd A (A.map f)).take n = (List.zipWith vecAdd B (B.map f)).take n := by
  rw [List.take_zipWith, List.take_zipWith, h, ← List.map_take, ← List.map_take, h]

theorem block_causal (P : Prim) (b : Block) : CausalMap (Block.forward P b) := by
  intro x y n hlen htake
  have expand : ∀ z : Mat, Block.forward P b z =
      List.zipWith vecAdd
        (List.zipWith vecAdd z (MHA.forward P b.sa (z.map (LayerNorm.forward P b.ln1))))
        ((List.zipWith vecAdd z (MHA.forward P b.sa (z.map (LayerNorm.forward P b.ln1)))).map
          (fun p => b.ffwd.forward (LayerNorm.forward P b.ln2 p))) := fun z => rfl
  rw [expand x, expand y]
  have hln : (x.map (LayerNorm.forward P b.ln1)).take n =
      (y.map (LayerNorm.forward P b.ln1)).take n := by
    rw [← List.map_take, ← List.map_take, htake]
  have hlnlen : (x.map (LayerNorm.forward P b.ln1)).length =
      (y.map (LayerNorm.forward P b.ln1)).length := by
    rw [List.length_map, List.length_map, hlen]
  have h1 : (List.zipWith vecAdd x (MHA.forward P b.sa (x.map (LayerNorm.forward P b.ln1)))).take n =
      (List.zipWith vecAdd y (MHA.forward P b.sa (y.map (LayerNorm.forward P b.ln1)))).take n := by
    rw [List.take_zipWith, List.take_zipWith, htake,
      mha_causal P b.sa _ _ n hlnlen hln]
  have h1len : (List.zipWith vecAdd x (MHA.forward P b.sa (x.map (LayerNorm.forward P b.ln1)))).length =
      (List.zipWith vecAdd y (MHA.forward P b.sa (y.map (LayerNorm.forward P b.ln1)))).length := by
    rw [List.length_zipWith, List.length_zipWith, mha_length, mha_length,
      List.length_map, List.length_map, hlen]
  exact take_residual_congr h1len h1

theorem blocksForward_causal (P : Prim) (bs : List Block) : CausalMap (blocksForward P bs) := by
  intro x y n hlen htake
  unfold blocksForward
  induction bs generalizing x y with
  | nil => simpa using htake
  | cons b bs ih =>
      rw [List.foldl_cons, List.foldl_cons]
      exact ih _ _ (by rw [block_length, block_length, hlen])
        (block_causal P b x y n hlen htake)

/-- A successful `Head.forward` computes exactly `headCore`, and certifies
that every input row matched the projections' input width and that the
sequence fit the `tril` buffer. -/
theorem Head.forward_eq_headCore {P : Prim} {h : Head} {x out : Mat}
    (hf : Head.forward P h x = some out) :
    out = headCore P h x ∧ (∀ r ∈ x, r.length = h.key.inFeatures) ∧
      x.length ≤ h.blockSize := by
  unfold Head.forward at hf
  simp only [Option.bind_eq_bind, Option.bind_eq_some] at hf
  obtain ⟨k, hk, q, hq, v, hv, hrest⟩ := hf
  obtain ⟨hkeq, hkrows⟩ := mapM_linear_eq hk
  obtain ⟨hqeq, _⟩ := mapM_linear_eq hq
  obtain ⟨hveq, _⟩ := mapM_linear_eq hv
  split at hrest
  · split at hrest
    · refine ⟨?_, hkrows, by omega⟩
      cases hrest
      rw [hkeq, hqeq, hveq]
      rfl
    · cases hrest
  · cases hrest

/-! ## Softmax row facts -/

theorem sum_map_div (d : ℚ) : ∀ l : List ℚ, (l.map (fun s => s / d)).sum = l.sum / d := by
  intro l
  induction l with
  | nil => simp
  | cons a l ih =>
      rw [List.map_cons, List.sum_cons, List.sum_cons, ih, add_div]

theorem maskedSoftmaxRow_nonneg {P : Prim} (hP : P.ExpPos) (i : ℕ) (row : Vec) :
    ∀ w ∈ maskedSoftmaxRow P.exp i row, 0 ≤ w := by
  intro w hw
  unfold maskedSoftmaxRow at hw
  rcases List.mem_append.mp hw with hmem | hmem
  · obtain ⟨s, hs, hsw⟩ := List.mem_map.mp hmem
    have hpre : (row.take (i + 1)) ≠ [] := List.ne_nil_of_mem hs
    have hden : 0 < ((row.take (i + 1)).map P.exp).sum := by
      refine List.sum_pos _ ?_ (by simpa using hpre)
      intro a ha
      obtain ⟨u, _, hu⟩ := List.mem_map.mp ha
      rw [← hu]; exact hP u
    rw [← hsw]
    exact le_of_lt (div_pos (hP s) hden)
  · rw [List.eq_of_mem_replicate hmem]

theorem maskedSoftmaxRow_sum {P : Prim} (hP : P.ExpPos) {i : ℕ} {row : Vec}
    (h : i < row.length) : (maskedSoftmaxRow P.exp i row).sum = 1 := by
  unfold maskedSoftmaxRow
  have hpre : (row.take (i + 1)) ≠ [] := by
    refine List.ne_nil_of_length_pos ?_
    rw [List.length_take]
    omega
  have hden : 0 < ((row.take (i + 1)).map P.exp).sum := by
    refine List.sum_pos _ ?_ (by simpa using hpre)
    intro a ha
    obtain ⟨u, _, hu⟩ := List.mem_map.mp ha
    rw [← hu]; exact hP u
  rw [List.sum_append, List.sum_replicate, smul_zero, add_zero]
  have hcomp : (row.take (i + 1)).map (fun s => P.exp s / ((row.take (i + 1)).map P.exp).sum)
      = ((row.take (i + 1)).map P.exp).map
        (fun s => s / ((row.take (i + 1)).map P.exp).sum) := by
    rw [List.map_map]
    rfl
  rw [hcomp, sum_map_div]
  exact div_self (ne_of_gt hden)

/-! ## Constructed models are well-formed -/

theorem mkMat_length (g : ℕ → ℕ → ℚ) (r c : ℕ) : (mkMat g r c).length = r := by
  simp [mkMat]

theorem mkMat_width (g : ℕ → ℕ → ℚ) (r c : ℕ) : ∀ v ∈ mkMat g r c, v.length = c := by
  intro v hv
  obtain ⟨i, _, hi⟩ := List.mem_map.mp hv
  rw [← hi]
  simp

theorem linear_init_wf (nin nout : ℕ) (hb : Bool) (g : ℕ → ℕ → ℚ) :
    (Linear.init nin nout hb g).WF nin nout := by
  refine ⟨rfl, mkMat_length g nout nin, mkMat_width g nout nin, ?_⟩
  intro b hbmem
  unfold Linear.init at hbmem
  cases hb with
  | false => simp at hbmem
  | true =>
      simp only [if_pos] at hbmem
      rw [show b = List.replicate nout (0 : ℚ) from (by simpa using hbmem : _ = b).symm]
      simp

theorem head_init_wf {msl : ℕ} (headSize nEmbd gbs : ℕ) (g : ℕ → ℕ → ℚ)
    (hmsl : msl ≤ gbs) : (Head.init headSize nEmbd gbs g).WF nEmbd headSize msl :=
  ⟨linear_init_wf _ _ _ _, linear_init_wf _ _ _ _, linear_init_wf _ _ _ _, hmsl⟩

theorem mha_init_wf {msl : ℕ} (nHeads headSize nEmbd gbs : ℕ) (g : ℕ → ℕ → ℚ)
    (hmsl : msl ≤ gbs) : (MHA.init nHeads headSize nEmbd gbs g).WF nEmbd msl := by
  refine ⟨headSize, ?_, ?_⟩
  · intro h hmem
    obtain ⟨_, _, hh⟩ := List.mem_map.mp hmem
    rw [← hh]
    exact head_init_wf headSize nEmbd gbs g hmsl
  · have : (MHA.init nHeads headSize nEmbd gbs g).heads.length = nHeads := by
      simp [MHA.init]
    rw [this]
    exact linear_init_wf _ _ _ _

theorem ln_init_wf (nEmbd : ℕ) : (LayerNorm.init nEmbd).WF nEmbd :=
  ⟨by simp [LayerNorm.init], by simp [LayerNorm.init]⟩

theorem block_init_wf {nEmbd nHead gbs : ℕ} {g : ℕ → ℕ → ℚ} {b : Block} {msl : ℕ}
    (h : Block.init nEmbd nHead gbs g = some b) (hmsl : msl ≤ gbs) :
    b.WF nEmbd msl := by
  unfold Block.init at h
  split at h
  · cases h
  · cases h
    exact ⟨mha_init_wf _ _ _ _ _ hmsl, ⟨linear_init_wf _ _ _ _, linear_init_wf _ _ _ _⟩,
      ln_init_wf _, ln_init_wf _⟩

theorem mapM_some_mem {α β : Type} {f : α → Option β} :
    ∀ {l : List α} {r : List β}, l.mapM f = some r →
      r.length = l.length ∧ ∀ b ∈ r, ∃ a ∈ l, f a = some b := by
  intro l
  induction l with
  | nil =>
      intro r h
      cases h
      exact ⟨rfl, by simp⟩
  | cons a l ih =>
      intro r h
      rw [List.mapM_cons] at h
      simp only [Option.bind_eq_bind, Option.bind_eq_some] at h
      obtain ⟨b, hb, rest, hrest, hr⟩ := h
      obtain ⟨hlen, hmem⟩ := ih hrest
      cases hr
      refine ⟨by simp [hlen], ?_⟩
      intro c hc
      rcases List.mem_cons.mp hc with h1 | h2
      · exact ⟨a, by simp, by rw [← h1] at hb; exact hb⟩
      · obtain ⟨u, hu, hfu⟩ := hmem c h2
        exact ⟨u, by simp [hu], hfu⟩

/-- A constructed `GPTLanguageModel` is well-formed (when its sequence cap
does not exceed the global `tril` size its heads captured), and carries the
constructor arguments in its fields. -/
theorem GPT.init_fields {V E bs L H gbs : ℕ} {g : ℕ → ℕ → ℚ} {m : GPT}
    (h : GPT.init V E bs L H gbs g = some m) (hbs : bs ≤ gbs) :
    m.WF ∧ m.vocabSize = V ∧ m.nEmbd = E ∧ m.blockSize = bs ∧ m.blocks.length = L := by
  unfold GPT.init at h
  simp only [Option.bind_eq_bind, Option.bind_eq_some] at h
  obtain ⟨blocks, hblocks, hm⟩ := h
  obtain ⟨hblen, hbmem⟩ := mapM_some_mem hblocks
  cases hm
  refine ⟨⟨mkMat_length g V E, mkMat_width g V E, mkMat_length g bs E, mkMat_width g bs E,
    ?_, ln_init_wf E, linear_init_wf _ _ _ _⟩, rfl, rfl, rfl, by simpa using hblen⟩
  intro b hb
  obtain ⟨_, _, hinit⟩ := hbmem b hb
  exact block_init_wf hinit hbs

/-! ## Generation -/

theorem sampleRows_length (f : ℕ → List ℚ → ℕ) :
    ∀ (b : ℕ) (ps : List Vec), (sampleRows f b ps).length = ps.length := by
  intro b ps
  induction ps generalizing b with
  | nil => rfl
  | cons p ps ih => simp [sampleRows, ih]

theorem sampleRows_mem (f : ℕ → List ℚ → ℕ) :
    ∀ (b : ℕ) (ps : List Vec) (t : ℕ), t ∈ sampleRows f b ps →
      ∃ b2 p, p ∈ ps ∧ t = f b2 p := by
  intro b ps
  induction ps generalizing b with
  | nil => intro t ht; simp [sampleRows] at ht
  | cons p ps ih =>
      intro t ht
      rcases List.mem_cons.mp ht with h1 | h2
      · exact ⟨b, p, by simp, h1⟩
      · obtain ⟨b2, q, hq, hfq⟩ := ih (b + 1) t h2
        exact ⟨b2, q, by simp [hq], hfq⟩

theorem zipWith_append_take {L : ℕ} :
    ∀ (a : List (List ℕ)) (b : List ℕ), (∀ r ∈ a, L ≤ r.length) → b.length = a.length →
      (List.zipWith (fun r n => r ++ [n]) a b).map (List.take L) = a.map (List.take L) := by
  intro a
  induction a with
  | nil => intro b _ _; simp
  | cons r a ih =>
      intro b hlen hb
      cases b with
      | nil => simp at hb
      | cons n b =>
          rw [List.zipWith_cons_cons, List.map_cons, List.map_cons,
            List.take_append_of_le_length (hlen r (by simp)),
            ih b (fun u hu => hlen u (by simp [hu])) (by simpa using hb)]

/-- One successful generation step: the model is read, one id below
`vocab_size` is sampled per row, and each row grows by exactly that id. -/
theorem genStep_some (P : Prim) (m : GPT) (samp : ℕ → ℕ → List ℚ → ℕ) (step : ℕ)
    (hwf : m.WF) (hbs : 0 < m.blockSize)
    (hsamp : ∀ s b p, p ≠ [] → samp s b p < p.length)
    {idx : List (List ℕ)} {L : ℕ} (hLpos : 0 < L)
    (hL : ∀ r ∈ idx, r.length = L)
    (hids : ∀ r ∈ idx, ∀ t ∈ r, t < m.vocabSize) :
    ∃ nexts, genStep P samp step ⟨m, idx⟩ =
        some ⟨m, List.zipWith (fun r n => r ++ [n]) idx nexts⟩ ∧
      nexts.length = idx.length ∧ ∀ t ∈ nexts, t < m.vocabSize := by
  set idxCond : List (List ℕ) := idx.map (fun r => r.drop (r.length - m.blockSize))
    with hidxCond
  have hcondL : ∀ r ∈ idxCond, r.length = min L m.blockSize := by
    intro r hr
    obtain ⟨r0, hr0, hrd⟩ := List.mem_map.mp hr
    rw [← hrd, List.length_drop, hL r0 hr0]
    omega
  have hcondids : ∀ r ∈ idxCond, ∀ t ∈ r, t < m.vocabSize := by
    intro r hr t ht
    obtain ⟨r0, hr0, hrd⟩ := List.mem_map.mp hr
    exact hids r0 hr0 t (List.drop_subset _ _ (by rw [hrd]; exact ht))
  obtain ⟨lg, hlg, hlgB, hlgS⟩ := GPT.logits3_shape P m hwf hcondL hcondids
  have hlgrow : ∀ s ∈ lg, s.length = min L m.blockSize ∧
      ∀ v ∈ s, v.length = m.vocabSize := by
    intro s hs
    obtain ⟨h1, h2⟩ := hlgS s hs
    exact ⟨by omega, h2⟩
  set lasts : List Vec := lg.map (fun s => s.getLast?.getD []) with hlastsdef
  have hlasts : lg.mapM List.getLast? = some lasts := by
    rw [hlastsdef]
    refine mapM_eq_some_of _ _ _ ?_
    intro s hs
    have hsne : s ≠ [] := by
      intro hnil
      have := (hlgrow s hs).1
      rw [hnil] at this
      simp at this
      omega
    cases hgl : s.getLast? with
    | none => exact absurd (List.getLast?_eq_none_iff.mp hgl) hsne
    | some a => rfl
  have hlastW : ∀ z ∈ lasts, z.length = m.vocabSize := by
    intro z hz
    rw [hlastsdef] at hz
    obtain ⟨s, hs, hsz⟩ := List.mem_map.mp hz
    have hsne : s ≠ [] := by
      intro hnil
      have := (hlgrow s hs).1
      rw [hnil] at this
      simp at this
      omega
    cases hgl : s.getLast? with
    | none => exact absurd (List.getLast?_eq_none_iff.mp hgl) hsne
    | some a =>
        have hmem : a ∈ s := List.mem_of_getLast?_eq_some hgl
        rw [← hsz, hgl, Option.getD_some]
        exact (hlgrow s hs).2 a hmem
  set probs : List Vec := lasts.map (softmaxRow P.exp) with hprobsdef
  set nexts : List ℕ := sampleRows (samp step) 0 probs with hnextsdef
  refine ⟨nexts, ?_, ?_, ?_⟩
  · unfold genStep
    simp only []
    rw [← hidxCond, GPT.forward_none hlg]
    simp only [Option.bind_eq_bind, Option.some_bind]
    rw [hlasts]
    simp only [Option.some_bind]
  · rw [hnextsdef, sampleRows_length, hprobsdef, List.length_map, hlastsdef,
      List.length_map, hlgB, hidxCond, List.length_map]
  · intro t ht
    rw [hnextsdef] at ht
    obtain ⟨b2, p, hp, htp⟩ := sampleRows_mem _ _ _ _ ht
    have hpW : p.length = m.vocabSize := by
      rw [hprobsdef] at hp
      obtain ⟨z, hz, hzp⟩ := List.mem_map.mp hp
      rw [← hzp]
      unfold softmaxRow
      rw [List.length_map]
      exact hlastW z hz
    have hVpos : 0 < m.vocabSize := by
      have hlgne : lg ≠ [] := by
        rw [hprobsdef] at hp
        obtain ⟨z, hz, _⟩ := List.mem_map.mp hp
        rw [hlastsdef] at hz
        obtain ⟨s, hs, _⟩ := List.mem_map.mp hz
        exact List.ne_nil_of_mem hs
      have hidxne : idx ≠ [] := by
        intro hnil
        refine hlgne (List.eq_nil_of_length_eq_zero ?_)
        rw [hlgB, hidxCond, hnil]
        rfl
      obtain ⟨r0, hr0⟩ := List.exists_mem_of_ne_nil idx hidxne
      have hr0ne : r0 ≠ [] := by
        intro hnil
        have := hL r0 hr0
        rw [hnil] at this
        simp at this
        omega
      obtain ⟨t0, ht0⟩ := List.exists_mem_of_ne_nil r0 hr0ne
      have := hids r0 hr0 t0 ht0
      omega
    have hpne : p ≠ [] := by
      intro hnil
      rw [hnil] at hpW
      simp at hpW
      omega
    rw [htp, ← hpW]
    exact hsamp step b2 p hpne

/-- A successful generation step leaves the model component untouched. -/
theorem genStep_model {P : Prim} {samp : ℕ → ℕ → List ℚ → ℕ} {t : ℕ} {s s2 : GenState}
    (h : genStep P samp t s = some s2) : s2.model = s.model := by
  unfold genStep at h
  simp only [Option.bind_eq_bind, Option.bind_eq_some] at h
  obtain ⟨pr, _, hrest⟩ := h
  obtain ⟨out, l⟩ := pr
  cases out with
  | rank2 _ => cases hrest
  | rank3 lg =>
      simp only [Option.bind_eq_some] at hrest
      obtain ⟨lasts, _, hfinal⟩ := hrest
      cases hfinal
      rfl

theorem foldlM_genStep_model (P : Prim) (samp : ℕ → ℕ → List ℚ → ℕ) :
    ∀ (l : List ℕ) (s s2 : GenState),
      l.foldlM (fun st t => genStep P samp t st) s = some s2 → s2.model = s.model := by
  intro l
  induction l with
  | nil =>
      intro s s2 h
      cases h
      rfl
  | cons a l ih =>
      intro s s2 h
      rw [List.foldlM_cons] at h
      simp only [Option.bind_eq_bind, Option.bind_eq_some] at h
      obtain ⟨s1, h1, h2⟩ := h
      rw [ih s1 s2 h2, genStep_model h1]

/-- The `generate` loop invariant: after `k` successful steps the model is
unchanged, every row has grown by exactly `k` ids below `vocab_size`, and
the original prefix is intact. -/
theorem generateS_spec (P : Prim) (m : GPT) (samp : ℕ → ℕ → List ℚ → ℕ)
    (hwf : m.WF) (hbs : 0 < m.blockSize)
    (hsamp : ∀ s b p, p ≠ [] → samp s b p < p.length) :
    ∀ (k : ℕ) (idx : List (List ℕ)) (L : ℕ), 0 < L →
      (∀ r ∈ idx, r.length = L) → (∀ r ∈ idx, ∀ t ∈ r, t < m.vocabSize) →
      ∃ idx2, generateS P m samp idx k = some ⟨m, idx2⟩ ∧
        idx2.length = idx.length ∧ (∀ r ∈ idx2, r.length = L + k) ∧
        (∀ r ∈ idx2, ∀ t ∈ r, t < m.vocabSize) ∧ idx2.map (List.take L) = idx := by
  intro k
  induction k with
  | zero =>
      intro idx L _ hL hids
      refine ⟨idx, rfl, rfl, by simpa using hL, hids, ?_⟩
      refine List.map_congr_left ?_ |>.trans (List.map_id idx)
      intro r hr
      rw [← hL r hr]
      exact List.take_length r
  | succ k ih =>
      intro idx L hLpos hL hids
      obtain ⟨idx2, hgen, hlen2, hrows2, hids2, htakeeq⟩ := ih idx L hLpos hL hids
      obtain ⟨nexts, hstep, hnextlen, hnextbound⟩ :=
        genStep_some P m samp k hwf hbs hsamp (L := L + k) (by omega) hrows2 hids2
      set idx3 : List (List ℕ) := List.zipWith (fun r n => r ++ [n]) idx2 nexts with hidx3
      refine ⟨idx3, ?_, ?_, ?_, ?_, ?_⟩
      · unfold generateS
        rw [List.range_succ, List.foldlM_append]
        have hgen2 : (List.range k).foldlM (fun s t => genStep P samp t s)
            (⟨m, idx⟩ : GenState) = some ⟨m, idx2⟩ := hgen
        rw [hgen2]
        simp only [Option.bind_eq_bind, Option.some_bind, List.foldlM_cons, List.foldlM_nil]
        rw [hstep]
        rfl
      · rw [hidx3, List.length_zipWith, hnextlen, hlen2]
        simp
      · intro r hr
        rw [hidx3] at hr
        obtain ⟨r2, t, hr2, _, hrt⟩ := zipWith_mem hr
        rw [hrt, List.length_append, hrows2 r2 hr2]
        rfl
      · intro r hr t ht
        rw [hidx3] at hr
        obtain ⟨r2, t2, hr2, ht2, hrt⟩ := zipWith_mem hr
        rw [hrt] at ht
        rcases List.mem_append.mp ht with h1 | h2
        · exact hids2 r2 hr2 t h1
        · rw [List.mem_singleton.mp h2]
          exact hnextbound t2 ht2
      · rw [hidx3, zipWith_append_take idx2 nexts
          (fun r hr => by rw [hrows2 r hr]; omega) (by rw [hnextlen, hlen2]), htakeeq]

/-! ## Shape helpers and concrete instances for the claims -/

theorem shape3_eq {lg : List Mat} {B T V : ℕ} (hB : lg.length = B)
    (hS : ∀ s ∈ lg, s.length = T ∧ ∀ v ∈ s, v.length = V)
    (hBpos : 0 < B) (hTpos : 0 < T) :
    LogitsOut.shape (LogitsOut.rank3 lg) = [B, T, V] := by
  cases lg with
  | nil => rw [List.length_nil] at hB; omega
  | cons s lg2 =>
      obtain ⟨hsT, hsW⟩ := hS s (by simp)
      cases s with
      | nil => rw [List.length_nil] at hsT; omega
      | cons v s2 =>
          unfold LogitsOut.shape
          simp only [List.head?_cons, Option.getD_some]
          rw [hB, hsT, hsW v (by simp)]

theorem shape2_eq {flat : Mat} {N V : ℕ} (hN : flat.length = N)
    (hW : ∀ v ∈ flat, v.length = V) (hNpos : 0 < N) :
    LogitsOut.shape (LogitsOut.rank2 flat) = [N, V] := by
  cases flat with
  | nil => rw [List.length_nil] at hN; omega
  | cons v flat2 =>
      unfold LogitsOut.shape
      simp only [List.head?_cons, Option.getD_some]
      rw [hN, hW v (by simp)]

theorem mapM_none_of_head {α β : Type} {f : α → Option β} {a : α} (l : List α)
    (h : f a = none) : (a :: l).mapM f = none := by
  rw [List.mapM_cons, h]
  rfl

/-- The all-zero entry source standing in for a random draw in witnesses. -/
def gZero : ℕ → ℕ → ℚ := fun _ _ => 0

/-- A concrete primitive bundle for witnesses: `exp = 1`, `sqrt = 1`,
`log = 0` (any bundle will do for structural claims). -/
def pOne : Prim := ⟨fun _ => 1, fun _ => 1, fun _ => 0⟩

/-- The sampler that always picks id `0`, a valid `multinomial` outcome. -/
def sampZero : ℕ → ℕ → List ℚ → ℕ := fun _ _ _ => 0

/-- The end-to-end scenario model of the spec: `vocab_size = 10`,
`embedding_width = 8`, `context_length = 4`, `n_layers = 1`, `n_heads = 2`
(with the ambient global `block_size` also `4`), zero-filled weights. -/
def scenarioM : GPT := (GPT.init 10 8 4 1 2 4 gZero).get (by decide)

theorem scenarioM_init : GPT.init 10 8 4 1 2 4 gZero = some scenarioM :=
  (Option.some_get _).symm

theorem scenarioM_wf : scenarioM.WF ∧ scenarioM.vocabSize = 10 ∧ scenarioM.nEmbd = 8 ∧
    scenarioM.blockSize = 4 ∧ scenarioM.blocks.length = 1 :=
  GPT.init_fields scenarioM_init (by omega)

/-! ## The claims -/

/-- Claim C1, counterexample.  As stated the claim is false on the code: in
the end-to-end scenario (`vocab=10, E=8, ctx=4, layers=1, heads=2`), calling
`forward` on input `[1,2,3]` with target `[2,3,4]` does return a loss, but
line 241 of `StoryLLM.py` reassigns `logits = logits.reshape(B*T, C)` before
`return`, so the returned logits tensor has shape `(3, 10)` — rank 2 — not
`(1, 3, 10)`. -/
theorem C1_counterexample :
    ((GPT.forward pOne scenarioM [[1, 2, 3]] (some [[2, 3, 4]])).map
      (fun p => LogitsOut.shape p.1)) = some [3, 10] ∧
    ([3, 10] : List ℕ) ≠ [1, 3, 10] := by
  constructor
  · decide
  · decide

/-- Claim C1, amended: in the end-to-end scenario, `forward` with input
`[1,2,3]` and target `[2,3,4]` returns a scalar loss (every scalar of the
exact-arithmetic embedding is finite) together with logits of shape
`(3, 10)` — the `(B*T, V)` reshape of line 241 — while the rank-3
`(1, 3, 10)` logits are returned only when no targets are supplied. -/
theorem C1_theorem (g : ℕ → ℕ → ℚ) (P : Prim) (m : GPT)
    (hm : GPT.init 10 8 4 1 2 4 g = some m) :
    (∃ flat loss, GPT.forward P m [[1, 2, 3]] (some [[2, 3, 4]]) =
        some (LogitsOut.rank2 flat, some loss) ∧
        LogitsOut.shape (LogitsOut.rank2 flat) = [3, 10]) ∧
    (∃ lg, GPT.forward P m [[1, 2, 3]] none = some (LogitsOut.rank3 lg, none) ∧
        LogitsOut.shape (LogitsOut.rank3 lg) = [1, 3, 10]) := by
  obtain ⟨hwf, hV, hE, hbs, hnl⟩ := GPT.init_fields hm (by omega)
  have hL3 : ∀ r ∈ ([[1, 2, 3]] : List (List ℕ)), r.length = 3 := by decide
  have hT3 : ∀ r ∈ ([[2, 3, 4]] : List (List ℕ)), r.length = 3 := by decide
  have h10a : ∀ r ∈ ([[1, 2, 3]] : List (List ℕ)), ∀ t ∈ r, t < 10 := by decide
  have h10b : ∀ r ∈ ([[2, 3, 4]] : List (List ℕ)), ∀ t ∈ r, t < 10 := by decide
  have hids : ∀ r ∈ ([[1, 2, 3]] : List (List ℕ)), ∀ t ∈ r, t < m.vocabSize := by
    intro r hr t ht
    rw [hV]
    exact h10a r hr t ht
  have htgv : ∀ r ∈ ([[2, 3, 4]] : List (List ℕ)), ∀ t ∈ r, t < m.vocabSize := by
    intro r hr t ht
    rw [hV]
    exact h10b r hr t ht
  constructor
  · obtain ⟨flat, loss, hfwd, hflen, hfW⟩ := GPT.forward_some_shape P m hwf
      hL3 hids hT3 htgv rfl (by rw [hbs]; decide)
    refine ⟨flat, loss, hfwd, ?_⟩
    refine shape2_eq ?_ (fun v hv => by rw [hfW v hv, hV]) (by omega)
    rw [hflen, hbs]
    rfl
  · obtain ⟨lg, hlg, hlgB, hlgS⟩ := GPT.logits3_shape P m hwf hL3 hids
    refine ⟨lg, GPT.forward_none hlg, ?_⟩
    refine shape3_eq (by rw [hlgB]; rfl)
      (fun s hs => ⟨by rw [(hlgS s hs).1, hbs]; rfl,
        fun v hv => by rw [(hlgS s hs).2 v hv, hV]⟩) (by omega) (by omega)

/-- Claim C1, witness for the amended theorem at the concrete zero-filled
scenario model. -/
theorem C1_witness :
    (∃ flat loss, GPT.forward pOne scenarioM [[1, 2, 3]] (some [[2, 3, 4]]) =
        some (LogitsOut.rank2 flat, some loss) ∧
        LogitsOut.shape (LogitsOut.rank2 flat) = [3, 10]) ∧
    (∃ lg, GPT.forward pOne scenarioM [[1, 2, 3]] none =
        some (LogitsOut.rank3 lg, none) ∧
        LogitsOut.shape (LogitsOut.rank3 lg) = [1, 3, 10]) :=
  C1_theorem gZero pOne scenarioM scenarioM_init

theorem agree_take {α : Type} {x y : List α} {i j : ℕ} (hlen : x.length = y.length)
    (hij : i < j) (hagree : ∀ p : ℕ, p ≠ j → x[p]? = y[p]?) :
    x.take (i + 1) = y.take (i + 1) := by
  apply List.ext_getElem?
  intro p
  rcases Nat.lt_or_ge p (i + 1) with hp | hp
  · rw [List.getElem?_take_of_lt hp, List.getElem?_take_of_lt hp]
    exact hagree p (by omega)
  · rw [List.getElem?_eq_none_iff.mpr, List.getElem?_eq_none_iff.mpr]
    · rw [List.length_take]; omega
    · rw [List.length_take]; omega

/-- Claim C2 (causality / noninterference).  Hold the parameters and the
evaluation mode fixed.  For every pair of same-length inputs that agree
everywhere except at a position `j`, and every `i < j`: the output of
`Head.forward` at position `i` is identical across the two runs, and so is
the output of the full block stack `blocksForward` (the `nn.Sequential` of
`Block.forward`s) at position `i`: the causal mask makes position `i` depend
only on positions `≤ i`. -/
theorem C2_theorem :
    (∀ (P : Prim) (h : Head) (x y out out2 : Mat) (i j : ℕ),
      x.length = y.length → i < j → (∀ p : ℕ, p ≠ j → x[p]? = y[p]?) →
      Head.forward P h x = some out → Head.forward P h y = some out2 →
      out[i]? = out2[i]?) ∧
    (∀ (P : Prim) (bs : List Block) (x y : Mat) (i j : ℕ),
      x.length = y.length → i < j → (∀ p : ℕ, p ≠ j → x[p]? = y[p]?) →
      (blocksForward P bs x)[i]? = (blocksForward P bs y)[i]?) := by
  constructor
  · intro P h x y out out2 i j hlen hij hagree hfx hfy
    obtain ⟨hox, _, _⟩ := Head.forward_eq_headCore hfx
    obtain ⟨hoy, _, _⟩ := Head.forward_eq_headCore hfy
    rw [hox, hoy]
    have htake := headCore_causal P h x y (i + 1) hlen (agree_take hlen hij hagree)
    rw [← List.getElem?_take_of_lt (l := headCore P h x) (Nat.lt_succ_self i), htake,
      List.getElem?_take_of_lt (Nat.lt_succ_self i)]
  · intro P bs x y i j hlen hij hagree
    have htake := blocksForward_causal P bs x y (i + 1) hlen (agree_take hlen hij hagree)
    rw [← List.getElem?_take_of_lt (l := blocksForward P bs x) (Nat.lt_succ_self i), htake,
      List.getElem?_take_of_lt (Nat.lt_succ_self i)]

/-- Claim C2, witness: a one-feature head and a one-block stack on two
two-position inputs differing only at the later position `j = 1`. -/
theorem C2_witness :
    ((headCore pOne (Head.init 1 1 4 gZero) [[1], [2]])[0]? =
      (headCore pOne (Head.init 1 1 4 gZero) [[1], [3]])[0]?) ∧
    ((blocksForward pOne [(Block.init 1 1 4 gZero).get (by decide)] [[1], [2]])[0]? =
      (blocksForward pOne [(Block.init 1 1 4 gZero).get (by decide)] [[1], [3]])[0]?) := by
  have hagree : ∀ p : ℕ, p ≠ 1 →
      ([[1], [2]] : Mat)[p]? = ([[1], [3]] : Mat)[p]? := by
    intro p hp
    match p with
    | 0 => rfl
    | 1 => exact absurd rfl hp
    | (q + 2) => rfl
  constructor
  · exact C2_theorem.1 pOne (Head.init 1 1 4 gZero) [[1], [2]] [[1], [3]]
      (headCore pOne (Head.init 1 1 4 gZero) [[1], [2]])
      (headCore pOne (Head.init 1 1 4 gZero) [[1], [3]]) 0 1 rfl (by decide) hagree rfl rfl
  · exact C2_theorem.2 pOne [(Block.init 1 1 4 gZero).get (by decide)]
      [[1], [2]] [[1], [3]] 0 1 rfl (by decide) hagree

/-- Claim C3, counterexample.  The claim says a non-divisible embedding
width is rejected at construction; but `Block.__init__` computes
`head_size = n_embd // n_head` by floor division with no divisibility
check, so `GPTLanguageModel(vocab=11, n_embd=10, ..., n_head=3)` constructs
a model even though `3 ∤ 10`. -/
theorem C3_counterexample :
    ¬ (3 ∣ 10) ∧ (GPT.init 11 10 4 1 3 4 gZero).isSome = true := by
  constructor
  · decide
  · decide

/-- Claim C3, amended: construction never checks divisibility.  With a
nonzero head count it always succeeds, giving every head the floored width
`n_embd / n_head`; the only constructor failure is `n_head = 0`
(`ZeroDivisionError` in `n_embd // n_head`) with at least one layer. -/
theorem C3_theorem :
    (∀ (V E bs L H gbs : ℕ) (g : ℕ → ℕ → ℚ), H ≠ 0 →
      ∃ m, GPT.init V E bs L H gbs g = some m ∧ m.blocks.length = L ∧
        ∀ b ∈ m.blocks, ∀ h ∈ b.sa.heads, h.key.weight.length = E / H) ∧
    (∀ (V E bs L gbs : ℕ) (g : ℕ → ℕ → ℚ), 0 < L →
      GPT.init V E bs L 0 gbs g = none) := by
  constructor
  · intro V E bs L H gbs g hH
    have hblk : Block.init E H gbs g = some
        { sa := MHA.init H (E / H) E gbs g
          ffwd := FeedForward.init E g
          ln1 := LayerNorm.init E
          ln2 := LayerNorm.init E } := by
      unfold Block.init
      rw [if_neg hH]
    have hmapM : (List.range L).mapM (fun _ => Block.init E H gbs g) =
        some ((List.range L).map (fun _ =>
          ({ sa := MHA.init H (E / H) E gbs g
             ffwd := FeedForward.init E g
             ln1 := LayerNorm.init E
             ln2 := LayerNorm.init E } : Block))) :=
      mapM_eq_some_of _ _ _ (fun _ _ => hblk)
    refine ⟨{ vocabSize := V
              nEmbd := E
              blockSize := bs
              tokTable := mkMat g V E
              posTable := mkMat g bs E
              blocks := (List.range L).map (fun _ =>
                ({ sa := MHA.init H (E / H) E gbs g
                   ffwd := FeedForward.init E g
                   ln1 := LayerNorm.init E
                   ln2 := LayerNorm.init E } : Block))
              lnF := LayerNorm.init E
              lmHead := Linear.init E V true g }, ?_, ?_, ?_⟩
    · unfold GPT.init
      rw [hmapM]
      rfl
    · simp
    · intro b hb h hh
      obtain ⟨_, _, hbdef⟩ := List.mem_map.mp hb
      rw [← hbdef] at hh
      obtain ⟨_, _, hhdef⟩ := List.mem_map.mp hh
      rw [← hhdef]
      exact mkMat_length g (E / H) E
  · intro V E bs L gbs g hL
    cases L with
    | zero => omega
    | succ L2 =>
        unfold GPT.init
        rw [List.range_succ_eq_map,
          mapM_none_of_head _ (by unfold Block.init; rw [if_pos rfl])]
        rfl

/-- Claim C3, witness for the amended theorem: the non-divisible
configuration `n_embd = 10`, `n_head = 3` constructs with head width
`10 / 3 = 3`, and `n_head = 0` fails. -/
theorem C3_witness :
    (∃ m, GPT.init 11 10 4 1 3 4 gZero = some m ∧ m.blocks.length = 1 ∧
      ∀ b ∈ m.blocks, ∀ h ∈ b.sa.heads, h.key.weight.length = 10 / 3) ∧
    GPT.init 11 10 4 1 0 4 gZero = none :=
  ⟨C3_theorem.1 11 10 4 1 3 4 gZero (by decide), C3_theorem.2 11 10 4 1 4 gZero (by decide)⟩

/-- Claim C4, counterexample.  The claim says every linear and embedding
weight matrix is drawn from a zero/near-zero-mean distribution (std 0.02);
but `_init_weights` (line 208) draws `nn.Embedding` weights from
`N(mean = 0.1, std = 0.02)` — a mean of `1/10`, five standard deviations
above zero, not a zero-centred draw. -/
theorem C4_counterexample :
    weightInit ModuleKind.embedding = some (1 / 10, 2 / 100) ∧ (1 / 10 : ℚ) ≠ 0 := by
  constructor
  · rfl
  · norm_num

/-- Claim C4, amended: `_init_weights` draws `nn.Linear` weights from
`N(0, 0.02)` and zeroes every `nn.Linear` bias exactly, but draws
`nn.Embedding` weights from `N(0.1, 0.02)` (mean `1/10`, not zero); layer
norms are untouched.  In a constructed model the output head's bias is the
exact zero vector. -/
theorem C4_theorem :
    (∀ hb : Bool, weightInit (ModuleKind.linear hb) = some (0, 2 / 100)) ∧
    weightInit ModuleKind.embedding = some (1 / 10, 2 / 100) ∧
    biasInit (ModuleKind.linear true) = some 0 ∧
    weightInit ModuleKind.layerNorm = none ∧
    (∀ (V E bs L H gbs : ℕ) (g : ℕ → ℕ → ℚ) (m : GPT),
      GPT.init V E bs L H gbs g = some m →
      m.lmHead.bias = some (List.replicate V 0)) := by
  refine ⟨fun _ => rfl, rfl, rfl, rfl, ?_⟩
  intro V E bs L H gbs g m hm
  unfold GPT.init at hm
  simp only [Option.bind_eq_bind, Option.bind_eq_some] at hm
  obtain ⟨blocks, _, hm⟩ := hm
  cases hm
  rfl

/-- Claim C4, witness for the amended theorem at the concrete scenario
model. -/
theorem C4_witness : scenarioM.lmHead.bias = some (List.replicate 10 0) :=
  C4_theorem.2.2.2.2 10 8 4 1 2 4 gZero scenarioM scenarioM_init

/-- Claim C5: for every uniform nonempty prefix batch of valid ids and
every `k ≥ 0`, `generate(prefix, max_new_tokens = k)` terminates (the loop
is a fold over exactly `k` iterations by construction) and returns rows
exactly `k` tokens longer than the prefix, whose first `L` entries are the
prefix unchanged and whose appended ids all lie in `[0, vocab_size)`.  The
sampler hypothesis is the `torch.multinomial` guarantee that a sampled
index is below the number of categories. -/
theorem C5_theorem (P : Prim) (m : GPT) (samp : ℕ → ℕ → List ℚ → ℕ)
    (idx : List (List ℕ)) (k L : ℕ)
    (hwf : m.WF) (hbs : 0 < m.blockSize)
    (hsamp : ∀ s b p, p ≠ [] → samp s b p < p.length)
    (hLpos : 0 < L) (hLen : ∀ r ∈ idx, r.length = L)
    (hids : ∀ r ∈ idx, ∀ t ∈ r, t < m.vocabSize) :
    ∃ res, GPT.generate P m samp idx k = some res ∧
      res.length = idx.length ∧ (∀ r ∈ res, r.length = L + k) ∧
      res.map (List.take L) = idx ∧
      ∀ r ∈ res, ∀ t ∈ r.drop L, t < m.vocabSize := by
  obtain ⟨idx2, hgen, hlen2, hrows2, hids2, htakeeq⟩ :=
    generateS_spec P m samp hwf hbs hsamp k idx L hLpos hLen hids
  refine ⟨idx2, ?_, hlen2, hrows2, htakeeq, ?_⟩
  · unfold GPT.generate
    rw [hgen]
    rfl
  · intro r hr t ht
    exact hids2 r hr t (List.drop_subset _ _ ht)

/-- Claim C5, witness: generating 2 tokens from prefix `[1,2,3]` on the
scenario model returns a length-5 row whose first three entries are
`[1,2,3]`. -/
theorem C5_witness :
    ∃ res, GPT.generate pOne scenarioM sampZero [[1, 2, 3]] 2 = some res ∧
      res.length = 1 ∧ (∀ r ∈ res, r.length = 3 + 2) ∧
      res.map (List.take 3) = [[1, 2, 3]] ∧
      ∀ r ∈ res, ∀ t ∈ r.drop 3, t < scenarioM.vocabSize :=
  C5_theorem pOne scenarioM sampZero [[1, 2, 3]] 2 3 scenarioM_wf.1
    (by rw [scenarioM_wf.2.2.2.1]; omega)
    (fun _ _ p hp => List.length_pos.mpr hp) (by omega) (by decide)
    (by
      have h10 : ∀ r ∈ ([[1, 2, 3]] : List (List ℕ)), ∀ t ∈ r, t < 10 := by decide
      intro r hr t ht
      rw [scenarioM_wf.2.1]
      exact h10 r hr t ht)

/-- Claim C6: a batch whose rows are longer than `context_length` is not
rejected: `forward` behaves exactly as on the input and targets truncated
to the first `block_size` columns (first conjunct, an unconditional
equation), and on a valid uniform batch it succeeds, producing reshaped
logits over `B * min L block_size` positions — the truncated length when
`L > block_size`, the full length `L` otherwise (second conjunct). -/
theorem C6_theorem :
    (∀ (P : Prim) (m : GPT) (idx tg : List (List ℕ)),
      GPT.forward P m idx (some tg) =
        GPT.forward P m (idx.map (List.take m.blockSize))
          (some (tg.map (List.take m.blockSize)))) ∧
    (∀ (P : Prim) (m : GPT) (idx tg : List (List ℕ)) (L : ℕ), m.WF →
      (∀ r ∈ idx, r.length = L) → (∀ r ∈ idx, ∀ t ∈ r, t < m.vocabSize) →
      (∀ r ∈ tg, r.length = L) → (∀ r ∈ tg, ∀ t ∈ r, t < m.vocabSize) →
      tg.length = idx.length →
      ∃ flat loss, GPT.forward P m idx (some tg) =
        some (LogitsOut.rank2 flat, some loss) ∧
        flat.length = idx.length * min L m.blockSize) := by
  constructor
  · intro P m idx tg
    have hT : m.truncLen (idx.map (List.take m.blockSize)) = m.truncLen idx := by
      unfold GPT.truncLen
      cases idx with
      | nil => rfl
      | cons r idx2 =>
          simp only [List.map_cons, List.head?_cons, Option.getD_some, List.length_take]
          omega
    have htaketake : ∀ (l : List (List ℕ)) (T : ℕ), T ≤ m.blockSize →
        (l.map (List.take m.blockSize)).map (List.take T) = l.map (List.take T) := by
      intro l T hTle
      rw [List.map_map]
      refine List.map_congr_left ?_
      intro r _
      show (r.take m.blockSize).take T = r.take T
      rw [List.take_take]
      congr 1
      omega
    have hTle : m.truncLen idx ≤ m.blockSize := min_le_right _ _
    have hlog : GPT.logits3 P m (idx.map (List.take m.blockSize)) =
        GPT.logits3 P m idx := by
      simp only [GPT.logits3]
      rw [hT, htaketake idx (m.truncLen idx) hTle]
    unfold GPT.forward
    simp only []
    rw [hlog, hT, htaketake tg (m.truncLen idx) hTle]
  · intro P m idx tg L hwf hL hids htgL htgv hB
    obtain ⟨flat, loss, hfwd, hflen, _⟩ :=
      GPT.forward_some_shape P m hwf hL hids htgL htgv hB (min_le_left _ _)
    exact ⟨flat, loss, hfwd, hflen⟩

/-- Claim C6, witness: a length-6 batch on the scenario model
(`block_size = 4`) is processed, with `1 * min 6 4 = 4` loss positions. -/
theorem C6_witness :
    (GPT.forward pOne scenarioM [[1, 2, 3, 4, 5, 6]] (some [[2, 3, 4, 5, 6, 7]]) =
      GPT.forward pOne scenarioM ([[1, 2, 3, 4, 5, 6]].map (List.take scenarioM.blockSize))
        (some ([[2, 3, 4, 5, 6, 7]].map (List.take scenarioM.blockSize)))) ∧
    (∃ flat loss, GPT.forward pOne scenarioM [[1, 2, 3, 4, 5, 6]]
        (some [[2, 3, 4, 5, 6, 7]]) = some (LogitsOut.rank2 flat, some loss) ∧
      flat.length = 1 * min 6 scenarioM.blockSize) := by
  constructor
  · exact C6_theorem.1 pOne scenarioM [[1, 2, 3, 4, 5, 6]] [[2, 3, 4, 5, 6, 7]]
  · exact C6_theorem.2 pOne scenarioM [[1, 2, 3, 4, 5, 6]] [[2, 3, 4, 5, 6, 7]] 6
      scenarioM_wf.1 (by decide)
      (by
        have h10 : ∀ r ∈ ([[1, 2, 3, 4, 5, 6]] : List (List ℕ)), ∀ t ∈ r, t < 10 := by
          decide
        intro r hr t ht
        rw [scenarioM_wf.2.1]
        exact h10 r hr t ht)
      (by decide)
      (by
        have h10 : ∀ r ∈ ([[2, 3, 4, 5, 6, 7]] : List (List ℕ)), ∀ t ∈ r, t < 10 := by
          decide
        intro r hr t ht
        rw [scenarioM_wf.2.1]
        exact h10 r hr t ht)
      rfl

/-- Claim C7: for every input on which `Head.forward` runs, each row of the
attention weight matrix it builds (mask, then softmax — the value
`attnWeights` computes on the scaled scores) is non-negative, sums to
exactly 1 in exact arithmetic (the within-tolerance reading of the float
claim), and is exactly zero at every future position.  Positivity of the
softmax exponential is the hypothesis `Prim.ExpPos`, true of the real
`exp`. -/
theorem C7_theorem (P : Prim) (hP : P.ExpPos) (h : Head) (x out : Mat) (i : ℕ)
    (row : Vec)
    (_hf : Head.forward P h x = some out)
    (hrow : (attnWeights P.exp (scoresOf (x.map h.query.applyU) (x.map h.key.applyU)
      (headScale P (x.map h.key.applyU))))[i]? = some row) :
    (∀ w ∈ row, 0 ≤ w) ∧ row.sum = 1 ∧
      ∀ j : ℕ, i < j → row[j]? = some 0 ∨ row.length ≤ j := by
  rw [attnWeights_getElem?] at hrow
  cases hsc : (scoresOf (x.map h.query.applyU) (x.map h.key.applyU)
      (headScale P (x.map h.key.applyU)))[i]? with
  | none => rw [hsc] at hrow; cases hrow
  | some srow =>
      rw [hsc, Option.map_some'] at hrow
      have hrowdef : row = maskedSoftmaxRow P.exp i srow := (Option.some.inj hrow).symm
      have hilt : i < (scoresOf (x.map h.query.applyU) (x.map h.key.applyU)
          (headScale P (x.map h.key.applyU))).length := by
        by_contra hge
        rw [List.getElem?_eq_none_iff.mpr (by omega)] at hsc
        cases hsc
      have hsrowlen : srow.length = x.length := by
        have hmem : srow ∈ scoresOf (x.map h.query.applyU) (x.map h.key.applyU)
            (headScale P (x.map h.key.applyU)) := by
          have := List.getElem?_eq_getElem (l := scoresOf (x.map h.query.applyU)
            (x.map h.key.applyU) (headScale P (x.map h.key.applyU))) hilt
          rw [this] at hsc
          rw [← Option.some.inj hsc]
          exact List.getElem_mem hilt
        obtain ⟨qi, _, hq⟩ := List.mem_map.mp hmem
        rw [← hq, List.length_map, List.length_map]
      have hix : i < x.length := by
        unfold scoresOf at hilt
        rw [List.length_map, List.length_map] at hilt
        exact hilt
      refine ⟨?_, ?_, ?_⟩
      · rw [hrowdef]
        exact maskedSoftmaxRow_nonneg hP i srow
      · rw [hrowdef]
        exact maskedSoftmaxRow_sum hP (by omega)
      · intro j hij
        rcases Nat.lt_or_ge j row.length with hj | hj
        · left
          rw [hrowdef]
          refine maskedSoftmaxRow_getElem?_of_gt hij ?_
          rw [hrowdef, maskedSoftmaxRow_length] at hj
          exact hj
        · right
          exact hj

/-- A concrete one-feature head and input for the C7 witness. -/
def headW : Head := Head.init 1 1 4 gZero

/-- The masked softmax row at query position `0` of `headW` on `[[1],[2]]`. -/
def c7row : Vec :=
  ((attnWeights pOne.exp (scoresOf (([[1], [2]] : Mat).map headW.query.applyU)
    (([[1], [2]] : Mat).map headW.key.applyU)
    (headScale pOne (([[1], [2]] : Mat).map headW.key.applyU))))[0]?).get (by decide)

/-- Claim C7, witness: the row at query position `0` of a one-feature head
on a two-position input is non-negative, sums to 1 and is zero at the
future position. -/
theorem C7_witness :
    (∀ w ∈ c7row, 0 ≤ w) ∧ c7row.sum = 1 ∧
      ∀ j : ℕ, 0 < j → c7row[j]? = some 0 ∨ c7row.length ≤ j :=
  C7_theorem pOne (fun _ => one_pos) headW [[1], [2]]
    (headCore pOne headW [[1], [2]]) 0 c7row rfl (Option.some_get _).symm

/-- Claim C8: `Block.forward` computes exactly the pre-normalised residual
composition `y = x + sa(ln1(x))` then `y + ffwd(ln2(y))` — normalisation of
each sublayer's input, not its output (first conjunct, the definitional
unfolding) — and on a well-formed block every `(T, E)` input produces a
`(T, E)` output (second conjunct; the batch axis is a `List.map` over
sequences, so `B` is preserved as well). -/
theorem C8_theorem :
    (∀ (P : Prim) (b : Block) (x : Mat),
      Block.forward P b x =
        List.zipWith vecAdd
          (List.zipWith vecAdd x (MHA.forward P b.sa (x.map (LayerNorm.forward P b.ln1))))
          ((List.zipWith vecAdd x
            (MHA.forward P b.sa (x.map (LayerNorm.forward P b.ln1)))).map
              (fun p => b.ffwd.forward (LayerNorm.forward P b.ln2 p)))) ∧
    (∀ (P : Prim) (b : Block) (x : Mat) (nEmbd msl : ℕ), b.WF nEmbd msl →
      (∀ r ∈ x, r.length = nEmbd) →
      (Block.forward P b x).length = x.length ∧
        ∀ r ∈ Block.forward P b x, r.length = nEmbd) := by
  constructor
  · intro P b x
    rfl
  · intro P b x nEmbd msl hwf hx
    exact ⟨block_length P b x, block_width P b x hwf hx⟩

/-- Claim C8, witness: a two-feature one-head block on a `(2, 2)` input
keeps shape `(2, 2)`. -/
theorem C8_witness :
    ((Block.forward pOne ((Block.init 2 1 4 gZero).get (by decide)) [[1, 2], [3, 4]]).length
      = ([[1, 2], [3, 4]] : Mat).length) ∧
    ∀ r ∈ Block.forward pOne ((Block.init 2 1 4 gZero).get (by decide)) [[1, 2], [3, 4]],
      r.length = 2 :=
  C8_theorem.2 pOne ((Block.init 2 1 4 gZero).get (by decide)) [[1, 2], [3, 4]] 2 4
    (block_init_wf (Option.some_get _).symm (by omega)) (by decide)

/-- Claim C9 (frame property): `generate` is pure with respect to the model
parameters.  The loop state is exactly `(model, idx)`; a successful run of
`generateS` returns the model component bitwise unchanged — every parameter
tensor (embedding tables, projection weights, normalisation affine
parameters) is the untouched original — and `generate` returns the
sequence component of that state.  No parameter-update machinery exists in
the loop (`@torch.no_grad()`; the embedding is read-only by construction of
`genStep`). -/
theorem C9_theorem (P : Prim) (m : GPT) (samp : ℕ → ℕ → List ℚ → ℕ)
    (idx : List (List ℕ)) (k : ℕ) :
    ∀ s2 : GenState, generateS P m samp idx k = some s2 →
      s2.model = m ∧ GPT.generate P m samp idx k = some s2.idx := by
  intro s2 h
  refine ⟨foldlM_genStep_model P samp (List.range k) ⟨m, idx⟩ s2 h, ?_⟩
  unfold GPT.generate
  rw [show generateS P m samp idx k = some s2 from h]
  rfl

/-- Claim C9, witness: one generation step on the scenario model with the
constant-zero sampler; the returned state carries the model unchanged. -/
theorem C9_witness :
    (⟨scenarioM, [[1, 0]]⟩ : GenState).model = scenarioM ∧
      GPT.generate pOne scenarioM sampZero [[1]] 1 =
        some (⟨scenarioM, [[1, 0]]⟩ : GenState).idx :=
  C9_theorem pOne scenarioM sampZero [[1]] 1 ⟨scenarioM, [[1, 0]]⟩ rfl

/-- Claim C10: the `assert C == self.key.in_features` on line 128 of
`Head.forward` can never fire on any input that reaches it: the key
projection `k = self.key(x)` has already run (line 124) and raises on any
width mismatch, so every surviving input has `C = in_features` — the
assertion's failure branch is unreachable (first conjunct); consequently
`Head.forward` succeeds whenever the projections succeed and the sequence
fits the mask buffer (second conjunct). -/
theorem C10_theorem (P : Prim) (h : Head) (x : Mat) :
    (∀ k : Mat, x.mapM h.key.forward = some k → x ≠ [] →
      (x.head?.getD []).length = h.key.inFeatures) ∧
    (∀ k q v : Mat, x ≠ [] → x.mapM h.key.forward = some k →
      x.mapM h.query.forward = some q → x.mapM h.value.forward = some v →
      x.length ≤ h.blockSize → Head.forward P h x = some (headCore P h x)) := by
  have hC : ∀ k : Mat, x.mapM h.key.forward = some k → x ≠ [] →
      (x.head?.getD []).length = h.key.inFeatures := by
    intro k hk hne
    obtain ⟨_, hrows⟩ := mapM_linear_eq hk
    cases x with
    | nil => exact absurd rfl hne
    | cons r x2 =>
        rw [List.head?_cons, Option.getD_some]
        exact hrows r (by simp)
  refine ⟨hC, ?_⟩
  intro k q v hne hk hq hv hbs
  obtain ⟨hkeq, _⟩ := mapM_linear_eq hk
  obtain ⟨hqeq, _⟩ := mapM_linear_eq hq
  obtain ⟨hveq, _⟩ := mapM_linear_eq hv
  unfold Head.forward
  rw [hk, hq, hv]
  simp only [Option.bind_eq_bind, Option.some_bind]
  rw [if_pos (hC k hk hne), if_pos hbs, hkeq, hqeq, hveq]
  rfl

/-- Claim C10, witness: a one-feature head on a one-row input; the key
projection succeeds, and the assert condition holds. -/
theorem C10_witness :
    (([[1]] : Mat).head?.getD []).length = headW.key.inFeatures ∧
      Head.forward pOne headW [[1]] = some (headCore pOne headW [[1]]) :=
  ⟨(C10_theorem pOne headW [[1]]).1 ([[1]].map headW.key.applyU) rfl (by decide),
    (C10_theorem pOne headW [[1]]).2 ([[1]].map headW.key.applyU)
      ([[1]].map headW.query.applyU) ([[1]].map headW.value.applyU)
      (by decide) rfl rfl rfl (by decide)⟩

end StoryLLM
